import Mathlib

/-!
Verification of the rails-source-maps asset post-processing pipeline
(src/lib/rails_source_maps.js).

The development shallowly embeds the file-processing core of the script:
file contents and paths are lists of characters, the filesystem is a partial
map from paths to contents, and the minifier and gzip collaborators are
opaque function parameters.  The per-file processor (`enqueue`), the marker
check (`hasSourceMap`), the duplicate reconciler (`processNonHashedFiles`)
and the surrounding driver logic are translated clause by clause from the
JavaScript source (the primary script variant; the older variant's trailing
marker check is embedded separately as `hasSourceMapV2`).

The bounded-concurrency work queue is provided by the external async
library, which is not part of the repository; it is modelled from the
specification as a small-step transition system (`QStep`, `QReach`).
-/

namespace RailsSourceMaps

/-- File contents and file paths are byte/character strings. -/
abbrev Str := List Char

/-- Shorthand turning a string literal into a character list. -/
def str (s : String) : Str := s.data

/-- The filesystem: a partial map from paths to file contents. -/
abbrev FS := Str → Option Str

/-- `fs.writeFile(p, c)` / stream copy destination: update one path. -/
def FS.write (st : FS) (p c : Str) : FS :=
  fun q => if q = p then some c else st q

/-- `fs.rename(src, dst)`: the content moves from `src` to `dst`. -/
def FS.rename (st : FS) (src dst : Str) : FS :=
  fun q => if q = dst then st src else if q = src then none else st q

/-- Substring-anywhere test: JavaScript `haystack.indexOf(needle) >= 0`. -/
def hasSubstr (needle : Str) : Str → Bool
  | [] => needle.isEmpty
  | c :: rest => needle.isPrefixOf (c :: rest) || hasSubstr needle rest

/-- JavaScript `s.replace(needle, repl)` with a plain-string pattern:
only the first (leftmost) occurrence of `needle` is replaced. -/
def replaceFirst (needle repl : Str) : Str → Str
  | [] => []
  | c :: rest =>
    if needle.isPrefixOf (c :: rest) then repl ++ (c :: rest).drop needle.length
    else c :: replaceFirst needle repl rest

/-- `jsfile.replace(/\.js$/, suffix)`: substitute the trailing `.js`. -/
def replaceSuffixJs (s newSuf : Str) : Str :=
  if (str ".js").isSuffixOf s then s.take (s.length - 3) ++ newSuf else s

/-- `jsfile.replace(/\.js$/, '.orig.js')` (source line 104). -/
def origPath (jsfile : Str) : Str := replaceSuffixJs jsfile (str ".orig.js")

/-- `jsfile.replace(/\.js$/, '.js.map')` (source line 105). -/
def sourcemapPath (jsfile : Str) : Str := replaceSuffixJs jsfile (str ".js.map")

/-- `jsfile.replace(/\.js$/, '.js.gz')` (source line 106). -/
def gzippedPath (jsfile : Str) : Str := replaceSuffixJs jsfile (str ".js.gz")

/-- `sourcemap.replace(/^((\.\/)?public\/)?/, '/')` (source line 108):
strip a leading `./public/` or `public/` if present and prepend `/`. -/
def sourceMapUrlOf (sourcemap : Str) : Str :=
  if (str "./public/").isPrefixOf sourcemap then '/' :: sourcemap.drop 9
  else if (str "public/").isPrefixOf sourcemap then '/' :: sourcemap.drop 7
  else '/' :: sourcemap

/-- The marker text appended to every minified file (source line 171, the
constant named `sourceMapPrefix` in the script). -/
def sourceMapMarker : Str := str "\n//# sourceMappingURL="

/-- `sourceMapText` for a given js file (source line 109). -/
def sourceMapTextOf (jsfile : Str) : Str :=
  sourceMapMarker ++ sourceMapUrlOf (sourcemapPath jsfile)

/-- `code.replace(/\.?\/?public\/assets\//g, '/assets/')` (source lines
126-127).  The JavaScript global replace scans left to right; at each
position the regex greedily consumes an optional `.`, an optional `/`, and
the literal `public/assets/`; matched text is replaced by `/assets/` and
scanning resumes after the match.  At each position the match attempt is,
in the regex engine's greedy backtracking order: `./public/assets/`,
`.public/assets/`, `/public/assets/`, then `public/assets/`. -/
def rewritePathsAux : Nat → Str → Str
  | 0, s => s
  | _ + 1, [] => []
  | fuel + 1, c :: rest =>
    if (str "./public/assets/").isPrefixOf (c :: rest) then
      str "/assets/" ++ rewritePathsAux fuel (rest.drop 15)
    else if (str ".public/assets/").isPrefixOf (c :: rest) then
      str "/assets/" ++ rewritePathsAux fuel (rest.drop 14)
    else if (str "/public/assets/").isPrefixOf (c :: rest) then
      str "/assets/" ++ rewritePathsAux fuel (rest.drop 14)
    else if (str "public/assets/").isPrefixOf (c :: rest) then
      str "/assets/" ++ rewritePathsAux fuel (rest.drop 13)
    else c :: rewritePathsAux fuel rest

/-- The scan itself: one fuel unit per character is enough, because every
step (match or not) consumes at least one character. -/
def rewritePaths (s : Str) : Str := rewritePathsAux s.length s

/-- The marker check of the primary variant (`hasSourceMap`, source lines
173-184): `contents.toString().indexOf(sourceMapPrefix) >= 0`, i.e. the
fixed marker text may appear anywhere in the file. -/
def hasSourceMapContent (contents : Str) : Bool :=
  hasSubstr sourceMapMarker contents

/-- `hasSourceMap(file, cb)` (source lines 173-184): read the file, then
apply the substring-anywhere check; a read error propagates. -/
def hasSourceMap (st : FS) (file : Str) : Except Str Bool :=
  match st file with
  | none => .error (str "read error")
  | some contents => .ok (hasSourceMapContent contents)

/-- The marker check of the second script variant (lines 396-411 of the
concatenated source): `contents.slice(-sourceMapText.length) ===
sourceMapText`, an exact trailing match of the full marker text including
the map URL. -/
def hasSourceMapV2 (jsfile contents : Str) : Bool :=
  (sourceMapTextOf jsfile).isSuffixOf contents

/-- Result of `uglify.minify`: minified code plus a source map. -/
structure Uglified where
  code : Str
  map : Str

/-- Run-wide options (`program.gzip`). -/
structure Config where
  gzip : Bool

/-- Per-file outcome delivered to the queue / series callback. -/
inductive Outcome where
  | success
  | alreadyProcessed
  | failure (msg : Str)
deriving DecidableEq

/-- `true` unless the outcome is a failure. -/
def Outcome.ok : Outcome → Bool
  | .failure _ => false
  | _ => true

/-- Side-effecting steps a file pipeline can perform, recorded as a trace. -/
inductive Action where
  | renamed (src dst : Str)
  | minified (file : Str)
  | wrote (p : Str)
  | gzipped (p : Str)
  | copied (src dst : Str)
deriving DecidableEq

/-- `enqueue(jsfile, cb)` (source lines 101-169), the Single-File
Processor: marker check, rename to `.orig.js`, minify, rewrite paths,
append the marker, write code and map, and optionally gzip.  `minify`
and `gz` are the opaque minification and compression collaborators;
`minify` receives the file content and the requested `outSourceMap` URL. -/
def enqueue (cfg : Config) (minify : Str → Str → Uglified) (gz : Str → Str)
    (st : FS) (jsfile : Str) : FS × Outcome × List Action :=
  let original := origPath jsfile
  let sourcemap := sourcemapPath jsfile
  let gzipped := gzippedPath jsfile
  let sourceMapUrl := sourceMapUrlOf sourcemap
  let sourceMapText := sourceMapMarker ++ sourceMapUrl
  match hasSourceMap st jsfile with
  | .error e => (st, .failure e, [])
  | .ok true => (st, .alreadyProcessed, [])
  | .ok false =>
    match st jsfile with
    | none => (st, .failure (str "read error"), [])
    | some contents =>
      let st₁ := st.rename jsfile original
      let uglified := minify contents sourceMapUrl
      let code := rewritePaths uglified.code ++ sourceMapText
      let map := rewritePaths uglified.map
      let st₂ := (st₁.write jsfile code).write sourcemap map
      if cfg.gzip then
        (st₂.write gzipped (gz code), .success,
          [.renamed jsfile original, .minified original, .wrote jsfile,
           .wrote sourcemap, .gzipped gzipped])
      else
        (st₂, .success,
          [.renamed jsfile original, .minified original, .wrote jsfile,
           .wrote sourcemap])

/-- The work queue draining over the fingerprinted files.  Each in-flight
pipeline owns the paths derived from its own file, so the bounded-
concurrency execution is observationally the sequential one; the
concurrency bound itself is treated separately (`QStep`/`QReach`). -/
def runQueue (cfg : Config) (minify : Str → Str → Uglified) (gz : Str → Str)
    (st : FS) : List Str → FS × List (Outcome × List Action)
  | [] => (st, [])
  | f :: fs =>
    let r := enqueue cfg minify gz st f
    let rest := runQueue cfg minify gz r.1 fs
    (rest.1, (r.2.1, r.2.2) :: rest.2)

/-- Reading the `.orig.js` files into `originalFileContentHash` (source
lines 221-237).  Iteration is in list order and reuses the accumulator, so
a later file with the same content overwrites an earlier one
(last-write-wins); a read error aborts the whole reconciler. -/
def buildContentHash (st : FS) : List Str → List (Str × Str) →
    Except Str (List (Str × Str))
  | [], acc => .ok acc
  | f :: fs, acc =>
    match st f with
    | none => .error (str "read error")
    | some c => buildContentHash st fs ((c, f) :: acc)

/-- `originalFileContentHash[contents]`: the most recent binding wins,
which is the head-most entry of the accumulator list. -/
def hashLookup (h : List (Str × Str)) (c : Str) : Option Str :=
  match h with
  | [] => none
  | (c₀, f) :: rest => if c = c₀ then some f else hashLookup rest c

/-- One iteration of the reconciler loop (source lines 241-291): marker
check, read, look up the content, rename to `.orig.js`, copy the matched
sibling's minified file, and optionally copy its gzip file. -/
def reconcileOne (cfg : Config) (st : FS) (hash : List (Str × Str))
    (jsfile : Str) : FS × Outcome × List Action :=
  let original := origPath jsfile
  let gzipped := gzippedPath jsfile
  match hasSourceMap st jsfile with
  | .error e => (st, .failure e, [])
  | .ok true => (st, .alreadyProcessed, [])
  | .ok false =>
    match st jsfile with
    | none => (st, .failure (str "read error"), [])
    | some contents =>
      match hashLookup hash contents with
      | none =>
        (st, .failure (str "Could not find original hashed file for: " ++ jsfile), [])
      | some sourceOrig =>
        let st₁ := st.rename jsfile original
        let minSrc := replaceFirst (str ".orig") [] sourceOrig
        match st₁ minSrc with
        | none => (st₁, .failure (str "copy read error"), [.renamed jsfile original])
        | some minContent =>
          let st₂ := st₁.write jsfile minContent
          if cfg.gzip then
            let gzSrc := replaceFirst (str ".orig.js") (str ".js.gz") sourceOrig
            match st₂ gzSrc with
            | none =>
              (st₂, .failure (str "copy read error"),
               [.renamed jsfile original, .copied minSrc jsfile])
            | some gzContent =>
              (st₂.write gzipped gzContent, .success,
               [.renamed jsfile original, .copied minSrc jsfile,
                .copied gzSrc gzipped])
          else
            (st₂, .success, [.renamed jsfile original, .copied minSrc jsfile])

/-- `async.forEachSeries(self.nonHashedFiles, ...)` (source lines
241-292): files are handled one at a time; an `AlreadyProcessedError` is
converted to success and iteration continues, while any other error is
passed to the series callback, which stops the iteration and surfaces the
error. -/
def processNonHashedList (cfg : Config) (st : FS) (hash : List (Str × Str)) :
    List Str → FS × Except Str (List (Str × Outcome))
  | [] => (st, .ok [])
  | f :: fs =>
    let r := reconcileOne cfg st hash f
    match r.2.1 with
    | .failure e => (r.1, .error e)
    | o =>
      let rest := processNonHashedList cfg r.1 hash fs
      match rest.2 with
      | .error e => (rest.1, .error e)
      | .ok l => (rest.1, .ok ((f, o) :: l))

/-- `processNonHashedFiles(cb)` (source lines 214-295): build the content
hash from the `.orig.js` files, then run the series over the
non-fingerprinted files. -/
def processNonHashedFiles (cfg : Config) (st : FS)
    (origFiles nonHashed : List Str) : FS × Except Str (List (Str × Outcome)) :=
  match buildContentHash st origFiles [] with
  | .error e => (st, .error e)
  | .ok h => processNonHashedList cfg st h nonHashed

/-- One full run: the queue over the fingerprinted files, then — on drain —
the duplicate reconciler over the non-fingerprinted ones (`onQueueDrain`,
source lines 308-316).  `origFiles` is the list the `*.orig.js` glob
returns at reconciliation time. -/
def runPipeline (cfg : Config) (minify : Str → Str → Uglified) (gz : Str → Str)
    (st : FS) (hashedFiles nonHashedFiles origFiles : List Str) :
    FS × List (Outcome × List Action) × Except Str (List (Str × Outcome)) :=
  let q := runQueue cfg minify gz st hashedFiles
  let r := processNonHashedFiles cfg q.1 origFiles nonHashedFiles
  (r.1, q.2, r.2)

/-- Removal of one occurrence of a task from a task list (used by the
queue model below in place of library list erasure). -/
def removeOne (t : Str) : List Str → List Str
  | [] => []
  | x :: xs => if x = t then xs else x :: removeOne t xs

/-- Modelled from the spec: the bounded-concurrency Work Queue.  The queue
itself is `async.queue`, an external collaborator whose source is not part
of this repository; the specification describes it as a dispatcher that
keeps at most `n` tasks in flight and fires a drain callback once all
submitted tasks have finished.  A state holds the waiting, in-flight and
finished tasks plus the number of times drain has fired. -/
structure QueueState where
  pending : List Str
  inFlight : List Str
  done : List Str
  drainCount : Nat
deriving DecidableEq

/-- Modelled from the spec: one scheduler transition of the Work Queue.
A waiting task may start while fewer than `n` are in flight; an in-flight
task may finish at any time (completion order is unconstrained), and the
drain callback fires exactly when the last task of an otherwise empty
queue finishes. -/
inductive QStep (n : Nat) : QueueState → QueueState → Prop where
  | start (t : Str) (p : List Str) (s : QueueState) :
      s.pending = t :: p → s.inFlight.length < n →
      QStep n s ⟨p, t :: s.inFlight, s.done, s.drainCount⟩
  | finish (t : Str) (s : QueueState) :
      t ∈ s.inFlight →
      QStep n s ⟨s.pending, removeOne t s.inFlight, t :: s.done,
        s.drainCount +
          (if s.pending = [] ∧ removeOne t s.inFlight = [] then 1 else 0)⟩

/-- Reachability under the queue scheduler. -/
inductive QReach (n : Nat) (init : QueueState) : QueueState → Prop where
  | refl : QReach n init init
  | step {s s₁ : QueueState} : QReach n init s → QStep n s s₁ → QReach n init s₁

/-- The queue right after `setupQueue` pushed the task list. -/
def initQ (tasks : List Str) : QueueState := ⟨tasks, [], [], 0⟩

/-- `program.threads || 3` (source line 16). -/
def threadsOrDefault (programThreads : Option Nat) : Nat :=
  programThreads.getD 3

/-- The concurrency limit the script actually uses: line 16 runs at module
load, before `program.parse(process.argv)` inside `main` has populated
`program.threads`, so the captured value is always the default. -/
def loadTimeThreads : Nat := threadsOrDefault none

/-- The path without its trailing `.js`. -/
def jsBase (f : Str) : Str := f.take (f.length - 3)

/-- The last `n` characters of a string. -/
def lastN (n : Nat) (l : Str) : Str := l.drop (l.length - n)

/-- The path ends in `.js` — true of everything the driver feeds the
queue, because the glob pattern is `**/*.js` (source lines 58-67). -/
def EndsJs (f : Str) : Prop := (str ".js").isSuffixOf f = true

/-- A path the driver would actually enqueue: it ends in `.js` and the
text `.orig` occurs nowhere in it (the glob filter drops `*.orig.js`, and
asset paths do not contain `.orig`). -/
def CleanJs (f : Str) : Prop :=
  (str ".js").isSuffixOf f = true ∧ hasSubstr (str ".orig") f = false

instance (f : Str) : Decidable (CleanJs f) :=
  inferInstanceAs
    (Decidable ((str ".js").isSuffixOf f = true ∧ hasSubstr (str ".orig") f = false))

/-- The file exists and its content carries the already-processed marker. -/
def MarkerIn (st : FS) (f : Str) : Prop :=
  ∃ c, st f = some c ∧ hasSourceMapContent c = true

/-! ### Basic string lemmas -/

theorem isPreOf_iff {l₁ l₂ : Str} : l₁.isPrefixOf l₂ = true ↔ ∃ t, l₂ = l₁ ++ t := by
  rw [ List.isPrefixOf_iff_prefix]
  exact ⟨fun ⟨t, h⟩ => ⟨t, h.symm⟩, fun ⟨t, h⟩ => ⟨t, h.symm⟩⟩

theorem isSufOf_iff {l₁ l₂ : Str} : l₁.isSuffixOf l₂ = true ↔ ∃ p, l₂ = p ++ l₁ := by
  rw [ List.isSuffixOf_iff_suffix]
  exact ⟨fun ⟨t, h⟩ => ⟨t, h.symm⟩, fun ⟨t, h⟩ => ⟨t, h.symm⟩⟩

theorem isSufOf_append_self (a b : Str) : b.isSuffixOf (a ++ b) = true :=
  isSufOf_iff.mpr ⟨a, rfl⟩

theorem hasSubstr_iff {n h : Str} : hasSubstr n h = true ↔ ∃ p q, h = p ++ n ++ q := by
  induction h with
  | nil =>
    simp only [hasSubstr, List.isEmpty_iff]
    constructor
    · rintro rfl; exact ⟨[], [], rfl⟩
    · rintro ⟨p, q, hpq⟩
      rcases List.append_eq_nil.mp hpq.symm with ⟨h1, h2⟩
      exact (List.append_eq_nil.mp h1).2
  | cons c rest ih =>
    simp only [hasSubstr, Bool.or_eq_true, ih, isPreOf_iff]
    constructor
    · rintro (⟨t, ht⟩ | ⟨p, q, hpq⟩)
      · exact ⟨[], t, by simpa using ht⟩
      · exact ⟨c :: p, q, by simp [hpq]⟩
    · rintro ⟨p, q, hpq⟩
      cases p with
      | nil => exact Or.inl ⟨q, by simpa using hpq⟩
      | cons c₀ p₀ =>
        simp only [List.cons_append, List.cons.injEq] at hpq
        exact Or.inr ⟨p₀, q, hpq.2⟩

theorem hasSubstr_append_middle (x n u : Str) : hasSubstr n (x ++ n ++ u) = true :=
  hasSubstr_iff.mpr ⟨x, u, rfl⟩

theorem marker_in_append (x u : Str) :
    hasSourceMapContent (x ++ (sourceMapMarker ++ u)) = true := by
  have := hasSubstr_append_middle x sourceMapMarker u
  simpa [hasSourceMapContent, List.append_assoc] using this

theorem origjs_suffix_has_orig {f : Str}
    (h : (str ".orig.js").isSuffixOf f = true) : hasSubstr (str ".orig") f = true := by
  rcases isSufOf_iff.mp h with ⟨p, hp⟩
  exact hasSubstr_iff.mpr ⟨p, str ".js", by simpa using hp⟩

theorem CleanJs.not_orig {f : Str} (h : CleanJs f) :
    (str ".orig.js").isSuffixOf f = false := by
  cases hof : (str ".orig.js").isSuffixOf f
  · rfl
  · exact absurd (origjs_suffix_has_orig hof) (by simp [h.2])

theorem ne_of_len {s t : Str} (h : s.length ≠ t.length) : s ≠ t :=
  fun he => h (he ▸ rfl)

theorem lastN_append {b : Str} (n : Nat) (h : n ≤ b.length) (a : Str) :
    lastN n (a ++ b) = lastN n b := by
  unfold lastN
  rw [List.length_append, show a.length + b.length - n = a.length + (b.length - n) by omega,
    List.drop_append]

/-! ### Decomposition of the derived paths -/

theorem endsJs_decomp {f : Str} (h : EndsJs f) : f = jsBase f ++ str ".js" := by
  rcases isSufOf_iff.mp h with ⟨p, hp⟩
  have hb : jsBase f = p := by
    rw [hp]; unfold jsBase
    rw [List.length_append, show (str ".js").length = 3 from rfl, Nat.add_sub_cancel,
      List.take_left]
  rw [hb, hp]

theorem replaceSuffixJs_eq {f : Str} (h : EndsJs f) (suf : Str) :
    replaceSuffixJs f suf = jsBase f ++ suf := by
  have h' : (str ".js").isSuffixOf f = true := h
  simp [replaceSuffixJs, jsBase, h']

theorem origPath_eq {f : Str} (h : EndsJs f) : origPath f = jsBase f ++ str ".orig.js" :=
  replaceSuffixJs_eq h _

theorem sourcemapPath_eq {f : Str} (h : EndsJs f) :
    sourcemapPath f = jsBase f ++ str ".js.map" :=
  replaceSuffixJs_eq h _

theorem gzippedPath_eq {f : Str} (h : EndsJs f) :
    gzippedPath f = jsBase f ++ str ".js.gz" :=
  replaceSuffixJs_eq h _

/-! ### Distinctness of the derived artifact paths -/

theorem lastN3_js (b : Str) : lastN 3 (b ++ str ".js") = str ".js" := by
  rw [lastN_append 3 (by decide)]; rfl

theorem lastN3_map (b : Str) : lastN 3 (b ++ str ".js.map") = str "map" := by
  rw [lastN_append 3 (by decide)]; rfl

theorem lastN3_gz (b : Str) : lastN 3 (b ++ str ".js.gz") = str ".gz" := by
  rw [lastN_append 3 (by decide)]; rfl

theorem lastN3_orig (b : Str) : lastN 3 (b ++ str ".orig.js") = str ".js" := by
  rw [lastN_append 3 (by decide)]; rfl

theorem len_append_suf (b s : Str) : (b ++ s).length = b.length + s.length :=
  List.length_append b s

theorem self_ne_origPath {f : Str} (hf : EndsJs f) : f ≠ origPath f := by
  rw [origPath_eq hf]; nth_rewrite 1 [endsJs_decomp hf]
  exact ne_of_len (by
    rw [len_append_suf, len_append_suf, show (str ".js").length = 3 from rfl,
      show (str ".orig.js").length = 8 from rfl]
    omega)

theorem self_ne_sourcemapPath {f : Str} (hf : EndsJs f) : f ≠ sourcemapPath f := by
  rw [sourcemapPath_eq hf]; nth_rewrite 1 [endsJs_decomp hf]
  exact ne_of_len (by
    rw [len_append_suf, len_append_suf, show (str ".js").length = 3 from rfl,
      show (str ".js.map").length = 7 from rfl]
    omega)

theorem self_ne_gzippedPath {f : Str} (hf : EndsJs f) : f ≠ gzippedPath f := by
  rw [gzippedPath_eq hf]; nth_rewrite 1 [endsJs_decomp hf]
  exact ne_of_len (by
    rw [len_append_suf, len_append_suf, show (str ".js").length = 3 from rfl,
      show (str ".js.gz").length = 6 from rfl]
    omega)

theorem origPath_ne_sourcemapPath {f g : Str} (hf : EndsJs f) (hg : EndsJs g) :
    origPath f ≠ sourcemapPath g := by
  rw [origPath_eq hf, sourcemapPath_eq hg]
  intro he
  have := congrArg (lastN 3) he
  rw [lastN3_orig, lastN3_map] at this
  exact absurd this (by decide)

theorem origPath_ne_gzippedPath {f g : Str} (hf : EndsJs f) (hg : EndsJs g) :
    origPath f ≠ gzippedPath g := by
  rw [origPath_eq hf, gzippedPath_eq hg]
  intro he
  have := congrArg (lastN 3) he
  rw [lastN3_orig, lastN3_gz] at this
  exact absurd this (by decide)

theorem sourcemapPath_ne_gzippedPath {f g : Str} (hf : EndsJs f) (hg : EndsJs g) :
    sourcemapPath f ≠ gzippedPath g := by
  rw [sourcemapPath_eq hf, gzippedPath_eq hg]
  intro he
  have := congrArg (lastN 3) he
  rw [lastN3_map, lastN3_gz] at this
  exact absurd this (by decide)

theorem js_ne_origPath {f g : Str} (_hf : EndsJs f)
    (hfo : (str ".orig.js").isSuffixOf f = false) (hg : EndsJs g) : f ≠ origPath g := by
  intro he
  rw [origPath_eq hg] at he
  rw [he, isSufOf_append_self] at hfo
  exact absurd hfo (by decide)

theorem js_ne_sourcemapPath {f g : Str} (hf : EndsJs f) (hg : EndsJs g) :
    f ≠ sourcemapPath g := by
  rw [sourcemapPath_eq hg]; nth_rewrite 1 [endsJs_decomp hf]
  intro he
  have := congrArg (lastN 3) he
  rw [lastN3_js, lastN3_map] at this
  exact absurd this (by decide)

theorem js_ne_gzippedPath {f g : Str} (hf : EndsJs f) (hg : EndsJs g) :
    f ≠ gzippedPath g := by
  rw [gzippedPath_eq hg]; nth_rewrite 1 [endsJs_decomp hf]
  intro he
  have := congrArg (lastN 3) he
  rw [lastN3_js, lastN3_gz] at this
  exact absurd this (by decide)

theorem origPath_inj {f g : Str} (hf : EndsJs f) (hg : EndsJs g)
    (h : origPath f = origPath g) : f = g := by
  rw [origPath_eq hf, origPath_eq hg] at h
  have hb := List.append_cancel_right h
  rw [endsJs_decomp hf, endsJs_decomp hg, hb]

theorem sourcemapPath_inj {f g : Str} (hf : EndsJs f) (hg : EndsJs g)
    (h : sourcemapPath f = sourcemapPath g) : f = g := by
  rw [sourcemapPath_eq hf, sourcemapPath_eq hg] at h
  have hb := List.append_cancel_right h
  rw [endsJs_decomp hf, endsJs_decomp hg, hb]

theorem gzippedPath_inj {f g : Str} (hf : EndsJs f) (hg : EndsJs g)
    (h : gzippedPath f = gzippedPath g) : f = g := by
  rw [gzippedPath_eq hf, gzippedPath_eq hg] at h
  have hb := List.append_cancel_right h
  rw [endsJs_decomp hf, endsJs_decomp hg, hb]

/-- A clean `.js` path distinct from `g` collides with none of the paths
the pipeline of `g` touches. -/
theorem notTouchedBy {p g : Str} (hp : EndsJs p)
    (hpo : (str ".orig.js").isSuffixOf p = false) (hg : EndsJs g) (_hne : p ≠ g) :
    p ≠ origPath g ∧ p ≠ sourcemapPath g ∧ p ≠ gzippedPath g :=
  ⟨js_ne_origPath hp hpo hg, js_ne_sourcemapPath hp hg, js_ne_gzippedPath hp hg⟩

/-- The `.orig.js` path of `h` collides with none of the paths the
pipeline of a distinct clean file `g` touches. -/
theorem origNotTouchedBy {h g : Str} (hh : EndsJs h) (hg : EndsJs g)
    (hgo : (str ".orig.js").isSuffixOf g = false) (hne : h ≠ g) :
    origPath h ≠ g ∧ origPath h ≠ origPath g ∧ origPath h ≠ sourcemapPath g ∧
      origPath h ≠ gzippedPath g :=
  ⟨fun he => (js_ne_origPath hg hgo hh) he.symm,
   fun he => hne (origPath_inj hh hg he),
   origPath_ne_sourcemapPath hh hg,
   origPath_ne_gzippedPath hh hg⟩

/-! ### Behaviour of the Single-File Processor -/

theorem enqueue_marker_skip (cfg : Config) (m : Str → Str → Uglified)
    (gz : Str → Str) (st : FS) {f c : Str} (hc : st f = some c)
    (h : hasSourceMapContent c = true) :
    enqueue cfg m gz st f = (st, .alreadyProcessed, []) := by
  simp [enqueue, hasSourceMap, hc, h]

theorem enqueue_frame (cfg : Config) (m : Str → Str → Uglified) (gz : Str → Str)
    (st : FS) (f p : Str) (h1 : p ≠ f) (h2 : p ≠ origPath f)
    (h3 : p ≠ sourcemapPath f) (h4 : p ≠ gzippedPath f) :
    (enqueue cfg m gz st f).1 p = st p := by
  unfold enqueue hasSourceMap
  cases hst : st f with
  | none => simp
  | some c =>
    cases hm : hasSourceMapContent c with
    | true => simp [hm]
    | false =>
      by_cases hg : cfg.gzip <;>
        simp [hm, hg, FS.write, FS.rename, h1, h2, h3, h4]

theorem enqueue_success (cfg : Config) (m : Str → Str → Uglified) (gz : Str → Str)
    (st : FS) {f c : Str} (hf : EndsJs f) (hc : st f = some c)
    (h : hasSourceMapContent c = false) :
    (enqueue cfg m gz st f).2.1 = .success ∧
    (enqueue cfg m gz st f).1 f =
      some (rewritePaths (m c (sourceMapUrlOf (sourcemapPath f))).code ++
        sourceMapTextOf f) ∧
    (enqueue cfg m gz st f).1 (origPath f) = some c ∧
    (enqueue cfg m gz st f).1 (sourcemapPath f) =
      some (rewritePaths (m c (sourceMapUrlOf (sourcemapPath f))).map) := by
  have hfo := self_ne_origPath hf
  have hfm := self_ne_sourcemapPath hf
  have hfg := self_ne_gzippedPath hf
  have hom := origPath_ne_sourcemapPath hf hf
  have hog := origPath_ne_gzippedPath hf hf
  have hmg := sourcemapPath_ne_gzippedPath hf hf
  unfold enqueue hasSourceMap
  rw [hc]
  by_cases hg : cfg.gzip <;>
    simp [h, hc, hg, FS.write, FS.rename, sourceMapTextOf, hfo, hfm, hfg,
      hom, hog, hmg, hfo.symm, hfm.symm, hfg.symm, hom.symm, hog.symm, hmg.symm]

/-! ### Behaviour of one reconciler iteration -/

theorem reconcile_marker_skip (cfg : Config) (st : FS) (hash : List (Str × Str))
    {f c : Str} (hc : st f = some c) (h : hasSourceMapContent c = true) :
    reconcileOne cfg st hash f = (st, .alreadyProcessed, []) := by
  simp [reconcileOne, hasSourceMap, hc, h]

theorem reconcile_nomatch (cfg : Config) (st : FS) (hash : List (Str × Str))
    {f c : Str} (hc : st f = some c) (h : hasSourceMapContent c = false)
    (hl : hashLookup hash c = none) :
    reconcileOne cfg st hash f =
      (st, .failure (str "Could not find original hashed file for: " ++ f), []) := by
  simp [reconcileOne, hasSourceMap, hc, h, hl]

theorem reconcile_frame (cfg : Config) (st : FS) (hash : List (Str × Str))
    (f p : Str) (h1 : p ≠ f) (h2 : p ≠ origPath f) (h3 : p ≠ gzippedPath f) :
    (reconcileOne cfg st hash f).1 p = st p := by
  unfold reconcileOne hasSourceMap
  cases hst : st f with
  | none => simp
  | some c =>
    cases hm : hasSourceMapContent c with
    | true => simp [hm]
    | false =>
      cases hl : hashLookup hash c with
      | none => simp [hm, hl]
      | some so =>
        simp only [hm, hl]
        cases hms : FS.rename st f (origPath f) (replaceFirst (str ".orig") [] so) with
        | none => simp [hms, FS.rename, h1, h2]
        | some mc =>
          by_cases hg : cfg.gzip
          · simp only [hms, hg, if_true]
            cases hgz : (FS.write (FS.rename st f (origPath f)) f mc)
                (replaceFirst (str ".orig.js") (str ".js.gz") so) with
            | none => simp [hgz, FS.write, FS.rename, h1, h2]
            | some gc => simp [hgz, FS.write, FS.rename, h1, h2, h3]
          · simp [hms, hg, FS.write, FS.rename, h1, h2]

/-- Every action the reconciler can record is a rename or a copy: it never
minifies and never writes a freshly generated file or source map. -/
theorem reconcile_actions (cfg : Config) (st : FS) (hash : List (Str × Str))
    (f : Str) : ∀ a ∈ (reconcileOne cfg st hash f).2.2,
      (∃ s d, a = .renamed s d) ∨ (∃ s d, a = .copied s d) := by
  unfold reconcileOne hasSourceMap
  cases hst : st f with
  | none => simp
  | some c =>
    cases hm : hasSourceMapContent c with
    | true => simp [hm]
    | false =>
      cases hl : hashLookup hash c with
      | none => simp [hm, hl]
      | some so =>
        simp only [hm, hl]
        cases hms : FS.rename st f (origPath f) (replaceFirst (str ".orig") [] so) with
        | none => simp [hms]
        | some mc =>
          by_cases hg : cfg.gzip
          · simp only [hms, hg, if_true]
            cases hgz : (FS.write (FS.rename st f (origPath f)) f mc)
                (replaceFirst (str ".orig.js") (str ".js.gz") so) with
            | none => simp [hgz]
            | some gc => simp [hgz]
          · simp [hms, hg]

/-- The copy step: when the looked-up sibling's minified path exists and is
none of the paths the rename touched, the non-fingerprinted file ends up
with exactly the sibling's minified content. -/
theorem reconcile_copies (cfg : Config) (st : FS) (hash : List (Str × Str))
    {f c so mc : Str} (hf : EndsJs f) (hc : st f = some c)
    (h : hasSourceMapContent c = false) (hl : hashLookup hash c = some so)
    (hne1 : replaceFirst (str ".orig") [] so ≠ f)
    (hne2 : replaceFirst (str ".orig") [] so ≠ origPath f)
    (hms : st (replaceFirst (str ".orig") [] so) = some mc) :
    (reconcileOne cfg st hash f).1 f = some mc ∧
    (reconcileOne cfg st hash f).1 (origPath f) = some c ∧
    (cfg.gzip = false → reconcileOne cfg st hash f =
      (((st.rename f (origPath f)).write f mc), .success,
        [.renamed f (origPath f), .copied (replaceFirst (str ".orig") [] so) f])) := by
  have hfo := self_ne_origPath hf
  have hfg := self_ne_gzippedPath hf
  have hog := origPath_ne_gzippedPath hf hf
  have hms₁ : FS.rename st f (origPath f) (replaceFirst (str ".orig") [] so) = some mc := by
    simp [FS.rename, hne1, hne2, hms]
  unfold reconcileOne hasSourceMap
  rw [hc]
  simp only [h, hl]
  by_cases hg : cfg.gzip
  · simp only [hms₁, hg, if_true]
    cases hgz : (FS.write (FS.rename st f (origPath f)) f mc)
        (replaceFirst (str ".orig.js") (str ".js.gz") so) with
    | none => simp [hgz, FS.write, FS.rename, hfo, hfo.symm, hc, hg]
    | some gc =>
      simp [hgz, FS.write, FS.rename, hfo, hfg, hog, hfo.symm, hfg.symm, hog.symm, hc, hg]
  · simp [hms₁, hg, FS.write, FS.rename, hfo, hfo.symm, hc, hne1, hne2, hms]

/-! ### Inversion lemmas -/

theorem Outcome.ok_iff {o : Outcome} :
    o.ok = true ↔ o = .success ∨ o = .alreadyProcessed := by
  cases o <;> simp [Outcome.ok]

theorem enqueue_already_inv (cfg : Config) (m : Str → Str → Uglified)
    (gz : Str → Str) (st : FS) (f : Str)
    (h : (enqueue cfg m gz st f).2.1 = .alreadyProcessed) :
    enqueue cfg m gz st f = (st, .alreadyProcessed, []) ∧ MarkerIn st f := by
  unfold enqueue hasSourceMap at h ⊢
  cases hst : st f with
  | none => simp [hst] at h
  | some c =>
    cases hm : hasSourceMapContent c with
    | true => exact ⟨by simp [hst, hm], ⟨c, hst, hm⟩⟩
    | false =>
      by_cases hg : cfg.gzip <;> simp [hst, hm, hg] at h

theorem enqueue_success_inv (cfg : Config) (m : Str → Str → Uglified)
    (gz : Str → Str) (st : FS) (f : Str)
    (h : (enqueue cfg m gz st f).2.1 = .success) :
    ∃ c, st f = some c ∧ hasSourceMapContent c = false := by
  unfold enqueue hasSourceMap at h
  cases hst : st f with
  | none => simp [hst] at h
  | some c =>
    cases hm : hasSourceMapContent c with
    | true => simp [hst, hm] at h
    | false => exact ⟨c, rfl, hm⟩

theorem reconcile_already_inv (cfg : Config) (st : FS) (hash : List (Str × Str))
    (f : Str) (h : (reconcileOne cfg st hash f).2.1 = .alreadyProcessed) :
    reconcileOne cfg st hash f = (st, .alreadyProcessed, []) ∧ MarkerIn st f := by
  unfold reconcileOne hasSourceMap at h ⊢
  cases hst : st f with
  | none => simp [hst] at h
  | some c =>
    cases hm : hasSourceMapContent c with
    | true => exact ⟨by simp [hst, hm], ⟨c, hst, hm⟩⟩
    | false =>
      cases hl : hashLookup hash c with
      | none => simp [hst, hm, hl] at h
      | some so =>
        simp only [hst, hm, hl] at h
        cases hms : FS.rename st f (origPath f) (replaceFirst (str ".orig") [] so) with
        | none => simp [hms] at h
        | some mc =>
          by_cases hg : cfg.gzip
          · simp only [hms, hg, if_true] at h
            cases hgz : (FS.write (FS.rename st f (origPath f)) f mc)
                (replaceFirst (str ".orig.js") (str ".js.gz") so) with
            | none => simp [hgz] at h
            | some gc => simp [hgz] at h
          · simp [hms, hg] at h

theorem reconcile_success_inv (cfg : Config) (st : FS) (hash : List (Str × Str))
    {f : Str} (hf : EndsJs f) (h : (reconcileOne cfg st hash f).2.1 = .success) :
    ∃ c so mc, st f = some c ∧ hasSourceMapContent c = false ∧
      hashLookup hash c = some so ∧
      FS.rename st f (origPath f) (replaceFirst (str ".orig") [] so) = some mc ∧
      (reconcileOne cfg st hash f).1 f = some mc := by
  have hfg := self_ne_gzippedPath hf
  unfold reconcileOne hasSourceMap at h ⊢
  cases hst : st f with
  | none => simp [hst] at h
  | some c =>
    cases hm : hasSourceMapContent c with
    | true => simp [hst, hm] at h
    | false =>
      cases hl : hashLookup hash c with
      | none => simp [hst, hm, hl] at h
      | some so =>
        simp only [hst, hm, hl] at h ⊢
        cases hms : FS.rename st f (origPath f) (replaceFirst (str ".orig") [] so) with
        | none => simp [hms] at h
        | some mc =>
          simp only [hms] at h ⊢
          refine ⟨c, so, mc, rfl, hm, hl, hms, ?_⟩
          by_cases hg : cfg.gzip
          · simp only [hg, if_true] at h ⊢
            cases hgz : (FS.write (FS.rename st f (origPath f)) f mc)
                (replaceFirst (str ".orig.js") (str ".js.gz") so) with
            | none => simp [hgz, FS.write]
            | some gc => simp [hgz, FS.write, hfg, hfg.symm]
          · simp [hg, FS.write]

/-! ### The queue phase -/

theorem runQueue_len (cfg : Config) (m : Str → Str → Uglified) (gz : Str → Str) :
    ∀ (files : List Str) (st : FS),
    (runQueue cfg m gz st files).2.length = files.length := by
  intro files
  induction files with
  | nil => intro st; rfl
  | cons f fs ih => intro st; simp [runQueue, ih]

theorem runQueue_skip_all (cfg : Config) (m : Str → Str → Uglified)
    (gz : Str → Str) : ∀ (files : List Str) (st : FS),
    (∀ f ∈ files, MarkerIn st f) →
    runQueue cfg m gz st files =
      (st, files.map fun _ => (Outcome.alreadyProcessed, ([] : List Action))) := by
  intro files
  induction files with
  | nil => intro st _; rfl
  | cons f fs ih =>
    intro st hm
    obtain ⟨c, hc, hmar⟩ := hm f (by simp)
    have he := enqueue_marker_skip cfg m gz st hc hmar
    have ht := ih st (fun g hg => hm g (by simp [hg]))
    simp [runQueue, he, ht]

theorem runQueue_frame (cfg : Config) (m : Str → Str → Uglified) (gz : Str → Str) :
    ∀ (files : List Str) (st : FS) (p : Str),
    (∀ f ∈ files, p ≠ f ∧ p ≠ origPath f ∧ p ≠ sourcemapPath f ∧ p ≠ gzippedPath f) →
    (runQueue cfg m gz st files).1 p = st p := by
  intro files
  induction files with
  | nil => intro st p _; rfl
  | cons f fs ih =>
    intro st p hp
    obtain ⟨h1, h2, h3, h4⟩ := hp f (by simp)
    have hstep := enqueue_frame cfg m gz st f p h1 h2 h3 h4
    have ht := ih (enqueue cfg m gz st f).1 p (fun g hg => hp g (by simp [hg]))
    simp only [runQueue]
    rw [ht, hstep]

theorem runQueue_saturates (cfg : Config) (m : Str → Str → Uglified)
    (gz : Str → Str) : ∀ (files : List Str) (st : FS),
    (∀ f ∈ files, CleanJs f) → files.Nodup →
    (∀ o ∈ (runQueue cfg m gz st files).2, o.1.ok = true) →
    ∀ f ∈ files, MarkerIn (runQueue cfg m gz st files).1 f := by
  intro files
  induction files with
  | nil => intro st _ _ _ f hf; exact absurd hf (by simp)
  | cons f fs ih =>
    intro st hclean hnd hok g hg
    have hcf : CleanJs f := hclean f (by simp)
    have hnd' : fs.Nodup := (List.nodup_cons.mp hnd).2
    have hfn : f ∉ fs := (List.nodup_cons.mp hnd).1
    have hok_head : (enqueue cfg m gz st f).2.1.ok = true := by
      have := hok ((enqueue cfg m gz st f).2.1, (enqueue cfg m gz st f).2.2)
      apply this
      simp [runQueue]
    have hok_tail : ∀ o ∈ (runQueue cfg m gz (enqueue cfg m gz st f).1 fs).2,
        o.1.ok = true := by
      intro o ho
      apply hok
      simp [runQueue]
      exact Or.inr ho
    rcases List.mem_cons.mp hg with rfl | hgfs
    · -- the head file: its marker is present after its own step and is
      -- preserved by the frame of the remaining files
      have hmk : MarkerIn (enqueue cfg m gz st g).1 g := by
        rcases Outcome.ok_iff.mp hok_head with hsucc | halready
        · obtain ⟨c, hc, hm⟩ := enqueue_success_inv cfg m gz st g hsucc
          obtain ⟨-, hcode, -, -⟩ := enqueue_success cfg m gz st hcf.1 hc hm
          exact ⟨_, hcode, by
            rw [show sourceMapTextOf g =
              sourceMapMarker ++ sourceMapUrlOf (sourcemapPath g) from rfl,
              show rewritePaths (m c (sourceMapUrlOf (sourcemapPath g))).code ++
                (sourceMapMarker ++ sourceMapUrlOf (sourcemapPath g)) =
                rewritePaths (m c (sourceMapUrlOf (sourcemapPath g))).code ++
                (sourceMapMarker ++ sourceMapUrlOf (sourcemapPath g)) from rfl]
            exact marker_in_append _ _⟩
        · obtain ⟨heq, hmk⟩ := enqueue_already_inv cfg m gz st g halready
          rw [heq]
          exact hmk
      obtain ⟨c, hc, hm⟩ := hmk
      refine ⟨c, ?_, hm⟩
      rw [show (runQueue cfg m gz st (g :: fs)).1 =
        (runQueue cfg m gz (enqueue cfg m gz st g).1 fs).1 from by simp [runQueue]]
      rw [runQueue_frame cfg m gz fs _ g ?_]
      · exact hc
      · intro g₀ hg₀
        have hcg₀ : CleanJs g₀ := hclean g₀ (by simp [hg₀])
        have hne : g ≠ g₀ := fun he => hfn (he ▸ hg₀)
        exact ⟨hne, notTouchedBy hcf.1 hcf.not_orig hcg₀.1 hne⟩
    · -- a later file: induction at the post-step state
      have := ih (enqueue cfg m gz st f).1
        (fun g₀ hg₀ => hclean g₀ (by simp [hg₀])) hnd' hok_tail g hgfs
      rw [show (runQueue cfg m gz st (f :: fs)).1 =
        (runQueue cfg m gz (enqueue cfg m gz st f).1 fs).1 from by simp [runQueue]]
      exact this

/-! ### The reconciler phase -/

theorem list_skip_all (cfg : Config) (hash : List (Str × Str)) :
    ∀ (nonH : List Str) (st : FS),
    (∀ f ∈ nonH, MarkerIn st f) →
    processNonHashedList cfg st hash nonH =
      (st, .ok (nonH.map fun f => (f, Outcome.alreadyProcessed))) := by
  intro nonH
  induction nonH with
  | nil => intro st _; rfl
  | cons f fs ih =>
    intro st hm
    obtain ⟨c, hc, hmar⟩ := hm f (by simp)
    have hr := reconcile_marker_skip cfg st hash hc hmar
    have ht := ih st (fun g hg => hm g (by simp [hg]))
    simp [processNonHashedList, hr, ht]

theorem list_frame (cfg : Config) (hash : List (Str × Str)) :
    ∀ (nonH : List Str) (st : FS) (p : Str),
    (∀ f ∈ nonH, p ≠ f ∧ p ≠ origPath f ∧ p ≠ gzippedPath f) →
    (processNonHashedList cfg st hash nonH).1 p = st p := by
  intro nonH
  induction nonH with
  | nil => intro st p _; rfl
  | cons f fs ih =>
    intro st p hp
    obtain ⟨h1, h2, h3⟩ := hp f (by simp)
    have hstep := reconcile_frame cfg st hash f p h1 h2 h3
    have ht := ih (reconcileOne cfg st hash f).1 p (fun g hg => hp g (by simp [hg]))
    simp only [processNonHashedList]
    cases ho : (reconcileOne cfg st hash f).2.1 with
    | failure e => simpa [ho] using hstep
    | success =>
      simp only [ho]
      cases hrest : (processNonHashedList cfg (reconcileOne cfg st hash f).1 hash fs).2 <;>
        simp [hrest, ht.symm ▸ hstep, ht, hstep]
    | alreadyProcessed =>
      simp only [ho]
      cases hrest : (processNonHashedList cfg (reconcileOne cfg st hash f).1 hash fs).2 <;>
        simp [hrest, ht, hstep]

/-- After a reconciler pass that ends in `.ok`, every reconciled file
carries the marker, provided every hash entry points at a minified sibling
that already carries the marker and is disjoint from the reconciled
files' own artifact paths. -/
theorem list_saturates (cfg : Config) (hash : List (Str × Str)) :
    ∀ (nonH : List Str) (st : FS),
    (∀ f ∈ nonH, CleanJs f) → nonH.Nodup →
    (∀ c so, hashLookup hash c = some so →
      MarkerIn st (replaceFirst (str ".orig") [] so) ∧
      ∀ f ∈ nonH, replaceFirst (str ".orig") [] so ≠ f ∧
        replaceFirst (str ".orig") [] so ≠ origPath f ∧
        replaceFirst (str ".orig") [] so ≠ gzippedPath f) →
    ∀ l, (processNonHashedList cfg st hash nonH).2 = .ok l →
    ∀ f ∈ nonH, MarkerIn (processNonHashedList cfg st hash nonH).1 f := by
  intro nonH
  induction nonH with
  | nil => intro st _ _ _ l _ f hf; exact absurd hf (by simp)
  | cons f fs ih =>
    intro st hclean hnd hsrc l hok g hg
    have hcf : CleanJs f := hclean f (by simp)
    have hnd' : fs.Nodup := (List.nodup_cons.mp hnd).2
    have hfn : f ∉ fs := (List.nodup_cons.mp hnd).1
    -- the head outcome cannot be a failure, else the series result is an error
    have hnotfail : (reconcileOne cfg st hash f).2.1.ok = true := by
      cases ho : (reconcileOne cfg st hash f).2.1 with
      | failure e => simp [processNonHashedList, ho] at hok
      | success => rfl
      | alreadyProcessed => rfl
    -- marker present at `f` right after its own reconciliation
    have hmk : MarkerIn (reconcileOne cfg st hash f).1 f := by
      rcases Outcome.ok_iff.mp hnotfail with hsucc | halready
      · obtain ⟨c, so, mc, hc, hm, hl, hms, hcontent⟩ :=
          reconcile_success_inv cfg st hash hcf.1 hsucc
        obtain ⟨hmkSrc, hdisj⟩ := hsrc c so hl
        obtain ⟨hd1, hd2, hd3⟩ := hdisj f (by simp)
        obtain ⟨cm, hcm, hmm⟩ := hmkSrc
        have : mc = cm := by
          have : FS.rename st f (origPath f)
              (replaceFirst (str ".orig") [] so) = st (replaceFirst (str ".orig") [] so) := by
            simp [FS.rename, hd1, hd2]
          rw [this, hcm] at hms
          exact (Option.some.injEq _ _ ▸ hms).symm
        exact ⟨mc, hcontent, this ▸ hmm⟩
      · obtain ⟨heq, hmk⟩ := reconcile_already_inv cfg st hash f halready
        rw [heq]
        exact hmk
    -- the induction hypothesis applies at the post-step state
    have hsrc' : ∀ c so, hashLookup hash c = some so →
        MarkerIn (reconcileOne cfg st hash f).1 (replaceFirst (str ".orig") [] so) ∧
        ∀ g₀ ∈ fs, replaceFirst (str ".orig") [] so ≠ g₀ ∧
          replaceFirst (str ".orig") [] so ≠ origPath g₀ ∧
          replaceFirst (str ".orig") [] so ≠ gzippedPath g₀ := by
      intro c so hl
      obtain ⟨⟨cm, hcm, hmm⟩, hdisj⟩ := hsrc c so hl
      obtain ⟨hd1, hd2, hd3⟩ := hdisj f (by simp)
      refine ⟨⟨cm, ?_, hmm⟩, fun g₀ hg₀ => hdisj g₀ (by simp [hg₀])⟩
      rw [reconcile_frame cfg st hash f _ hd1 hd2 hd3]
      exact hcm
    -- now split on where `g` sits
    simp only [processNonHashedList] at hok ⊢
    cases ho : (reconcileOne cfg st hash f).2.1 with
    | failure e => simp [ho] at hok
    | success =>
      simp only [ho] at hok ⊢
      cases hrest : (processNonHashedList cfg (reconcileOne cfg st hash f).1 hash fs).2 with
      | error e => simp [hrest] at hok
      | ok l₀ =>
        simp only [hrest]
        rcases List.mem_cons.mp hg with rfl | hgfs
        · obtain ⟨cm, hcm, hmm⟩ := hmk
          refine ⟨cm, ?_, hmm⟩
          rw [list_frame cfg hash fs _ g ?_]
          · exact hcm
          · intro g₀ hg₀
            have hcg₀ : CleanJs g₀ := hclean g₀ (by simp [hg₀])
            have hne : g ≠ g₀ := fun he => hfn (he ▸ hg₀)
            obtain ⟨d1, d2, d3⟩ := notTouchedBy hcf.1 hcf.not_orig hcg₀.1 hne
            exact ⟨hne, d1, d3⟩
        · have := ih (reconcileOne cfg st hash f).1
            (fun g₀ hg₀ => hclean g₀ (by simp [hg₀])) hnd' hsrc' l₀ hrest g hgfs
          exact this
    | alreadyProcessed =>
      simp only [ho] at hok ⊢
      cases hrest : (processNonHashedList cfg (reconcileOne cfg st hash f).1 hash fs).2 with
      | error e => simp [hrest] at hok
      | ok l₀ =>
        simp only [hrest]
        rcases List.mem_cons.mp hg with rfl | hgfs
        · obtain ⟨cm, hcm, hmm⟩ := hmk
          refine ⟨cm, ?_, hmm⟩
          rw [list_frame cfg hash fs _ g ?_]
          · exact hcm
          · intro g₀ hg₀
            have hcg₀ : CleanJs g₀ := hclean g₀ (by simp [hg₀])
            have hne : g ≠ g₀ := fun he => hfn (he ▸ hg₀)
            obtain ⟨d1, d2, d3⟩ := notTouchedBy hcf.1 hcf.not_orig hcg₀.1 hne
            exact ⟨hne, d1, d3⟩
        · exact ih (reconcileOne cfg st hash f).1
            (fun g₀ hg₀ => hclean g₀ (by simp [hg₀])) hnd' hsrc' l₀ hrest g hgfs

/-! ### The content matcher -/

theorem build_ok_of_readable (st : FS) :
    ∀ (files : List Str), (∀ g ∈ files, ∃ c, st g = some c) →
    ∀ acc, ∃ h, buildContentHash st files acc = .ok h := by
  intro files
  induction files with
  | nil => intro _ acc; exact ⟨acc, rfl⟩
  | cons f fs ih =>
    intro hr acc
    obtain ⟨c, hc⟩ := hr f (by simp)
    obtain ⟨h, hh⟩ := ih (fun g hg => hr g (by simp [hg])) ((c, f) :: acc)
    exact ⟨h, by simp [buildContentHash, hc, hh]⟩

theorem build_readable_of_ok (st : FS) :
    ∀ (files : List Str) (acc h : List (Str × Str)),
    buildContentHash st files acc = .ok h →
    ∀ g ∈ files, ∃ c, st g = some c := by
  intro files
  induction files with
  | nil => intro _ _ _ g hg; exact absurd hg (by simp)
  | cons f fs ih =>
    intro acc h hok g hg
    simp only [buildContentHash] at hok
    cases hc : st f with
    | none => simp [hc] at hok
    | some c =>
      rw [hc] at hok
      rcases List.mem_cons.mp hg with rfl | hgfs
      · exact ⟨c, hc⟩
      · exact ih ((c, f) :: acc) h hok g hgfs

theorem build_entries (st : FS) :
    ∀ (files : List Str) (acc h : List (Str × Str)),
    buildContentHash st files acc = .ok h →
    ∀ e ∈ h, e ∈ acc ∨ (e.2 ∈ files ∧ st e.2 = some e.1) := by
  intro files
  induction files with
  | nil =>
    intro acc h hok e he
    simp only [buildContentHash] at hok
    cases hok
    exact Or.inl he
  | cons f fs ih =>
    intro acc h hok e he
    simp only [buildContentHash] at hok
    cases hc : st f with
    | none => simp [hc] at hok
    | some c =>
      rw [hc] at hok
      rcases ih ((c, f) :: acc) h hok e he with hacc | ⟨hmem, hst⟩
      · rcases List.mem_cons.mp hacc with rfl | hacc₀
        · exact Or.inr ⟨by simp, hc⟩
        · exact Or.inl hacc₀
      · exact Or.inr ⟨by simp [hmem], hst⟩

theorem hashLookup_mem {h : List (Str × Str)} {c f : Str}
    (hl : hashLookup h c = some f) : (c, f) ∈ h := by
  induction h with
  | nil => simp [hashLookup] at hl
  | cons e rest ih =>
    simp only [hashLookup] at hl
    by_cases hc : c = e.1
    · rw [if_pos hc] at hl
      cases hl
      exact List.mem_cons.mpr (Or.inl (by rw [hc]))
    · rw [if_neg hc] at hl
      exact List.mem_cons.mpr (Or.inr (ih hl))

/-! ### `replace('.orig', '')` really inverts the `.orig.js` rename -/

theorem isPreOf_take {n l : Str} : n.isPrefixOf l = true ↔ l.take n.length = n := by
  constructor
  · intro h
    obtain ⟨t, rfl⟩ := isPreOf_iff.mp h
    exact List.take_left ..
  · intro h
    refine isPreOf_iff.mpr ⟨l.drop n.length, ?_⟩
    conv_lhs => rw [← List.take_append_drop n.length l]
    rw [h]

theorem replaceFirst_orig_cancel :
    ∀ (base : Str), hasSubstr (str ".orig") (base ++ str ".js") = false →
    replaceFirst (str ".orig") [] (base ++ str ".orig.js") = base ++ str ".js" := by
  intro base
  induction base with
  | nil => intro _; decide
  | cons c b ih =>
    intro h
    simp only [List.cons_append, hasSubstr, Bool.or_eq_false_iff, List.append_eq] at h
    obtain ⟨hhead, htail⟩ := h
    have hpre : (str ".orig").isPrefixOf (c :: (b ++ str ".orig.js")) = false := by
      by_cases hb : 4 ≤ b.length
      · -- long base: the first five characters agree with those of
        -- `c :: (b ++ ".js")`, on which the check is already false
        cases hp : (str ".orig").isPrefixOf (c :: (b ++ str ".orig.js")) with
        | false => rfl
        | true =>
          exfalso
          have h5 : (str ".orig").length = 5 := rfl
          have ht := isPreOf_take.mp hp
          rw [h5] at ht
          have hagree : (c :: (b ++ str ".orig.js")).take 5 =
              (c :: (b ++ str ".js")).take 5 := by
            show c :: (b ++ str ".orig.js").take 4 = c :: (b ++ str ".js").take 4
            rw [List.take_append_of_le_length hb, List.take_append_of_le_length hb]
          rw [hagree] at ht
          have hcontra : (str ".orig").isPrefixOf (c :: (b ++ str ".js")) = true :=
            isPreOf_take.mpr (by rw [h5]; exact ht)
          rw [hcontra] at hhead
          exact absurd hhead (by decide)
      · -- short base: the check fails on a concrete character mismatch
        cases hp : (str ".orig").isPrefixOf (c :: (b ++ str ".orig.js")) with
        | false => rfl
        | true =>
          exfalso
          obtain ⟨t, ht⟩ := isPreOf_iff.mp hp
          rcases b with _ | ⟨b0, _ | ⟨b1, _ | ⟨b2, _ | ⟨b3, bt⟩⟩⟩⟩
          · simp [str] at ht
          · simp [str] at ht
          · simp [str] at ht
          · simp [str] at ht
          · exact hb (by simp)
    simp only [List.cons_append, replaceFirst, List.append_eq, hpre,
      Bool.false_eq_true, if_false]
    rw [ih htail]

/-! ### Assembling the phases -/

theorem pnh_inv {cfg : Config} {st : FS} {origs nonH : List Str}
    {l : List (Str × Outcome)}
    (h : (processNonHashedFiles cfg st origs nonH).2 = .ok l) :
    ∃ hsh, buildContentHash st origs [] = .ok hsh ∧
      processNonHashedList cfg st hsh nonH =
        ((processNonHashedFiles cfg st origs nonH).1, .ok l) := by
  unfold processNonHashedFiles at h ⊢
  cases hb : buildContentHash st origs [] with
  | error e => simp [hb] at h
  | ok hsh =>
    refine ⟨hsh, rfl, ?_⟩
    simp only [hb] at h ⊢
    rw [← h]

/-! ### The path rewrite: per-match behaviour -/

theorem rewritePathsAux_fuel : ∀ (f₁ : Nat) (s : Str), s.length ≤ f₁ → ∀ (f₂ : Nat), s.length ≤ f₂ →
    rewritePathsAux f₁ s = rewritePathsAux f₂ s := by
  intro f₁
  induction f₁ with
  | zero =>
    intro s hs f₂ _
    have : s = [] := List.length_eq_zero.mp (Nat.le_zero.mp hs)
    subst this
    cases f₂ <;> rfl
  | succ f ih =>
    intro s hs f₂ h₂
    cases s with
    | nil => cases f₂ <;> rfl
    | cons c rest =>
      cases f₂ with
      | zero => simp at h₂
      | succ f₂ =>
        simp only [rewritePathsAux]
        have hr : rest.length ≤ f := by simp at hs; omega
        have hr₂ : rest.length ≤ f₂ := by simp at h₂; omega
        have d15 : (rest.drop 15).length ≤ f := by simp [List.length_drop]; omega
        have d15₂ : (rest.drop 15).length ≤ f₂ := by simp [List.length_drop]; omega
        have d14 : (rest.drop 14).length ≤ f := by simp [List.length_drop]; omega
        have d14₂ : (rest.drop 14).length ≤ f₂ := by simp [List.length_drop]; omega
        have d13 : (rest.drop 13).length ≤ f := by simp [List.length_drop]; omega
        have d13₂ : (rest.drop 13).length ≤ f₂ := by simp [List.length_drop]; omega
        rw [ih _ d15 _ d15₂, ih _ d14 _ d14₂, ih _ d13 _ d13₂, ih _ hr _ hr₂]

theorem rewritePathsAux_eq (f : Nat) (s : Str) (h : s.length ≤ f) :
    rewritePathsAux f s = rewritePaths s :=
  rewritePathsAux_fuel f s h s.length (Nat.le_refl _)

theorem rewritePaths_head_plain (s : Str) :
    rewritePaths (str "public/assets/" ++ s) = str "/assets/" ++ rewritePaths s := by
  rw [show str "public/assets/" ++ s =
    'p' :: 'u' :: 'b' :: 'l' :: 'i' :: 'c' :: '/' :: 'a' :: 's' :: 's' :: 'e' :: 't' :: 's' :: '/' :: s from rfl]
  show rewritePathsAux _ _ = _
  rw [show ('p' :: 'u' :: 'b' :: 'l' :: 'i' :: 'c' :: '/' :: 'a' :: 's' :: 's' :: 'e' :: 't' :: 's' :: '/' :: s).length
    = (('u' :: 'b' :: 'l' :: 'i' :: 'c' :: '/' :: 'a' :: 's' :: 's' :: 'e' :: 't' :: 's' :: '/' :: s).length) + 1 from by simp]
  simp only [rewritePathsAux]
  rw [show (str "./public/assets/").isPrefixOf
      ('p' :: 'u' :: 'b' :: 'l' :: 'i' :: 'c' :: '/' :: 'a' :: 's' :: 's' :: 'e' :: 't' :: 's' :: '/' :: s) = false from rfl]
  rw [show (str ".public/assets/").isPrefixOf
      ('p' :: 'u' :: 'b' :: 'l' :: 'i' :: 'c' :: '/' :: 'a' :: 's' :: 's' :: 'e' :: 't' :: 's' :: '/' :: s) = false from rfl]
  rw [show (str "/public/assets/").isPrefixOf
      ('p' :: 'u' :: 'b' :: 'l' :: 'i' :: 'c' :: '/' :: 'a' :: 's' :: 's' :: 'e' :: 't' :: 's' :: '/' :: s) = false from rfl]
  rw [show (str "public/assets/").isPrefixOf
      ('p' :: 'u' :: 'b' :: 'l' :: 'i' :: 'c' :: '/' :: 'a' :: 's' :: 's' :: 'e' :: 't' :: 's' :: '/' :: s) = true from by
    simp [str, List.isPrefixOf]]
  simp only [Bool.false_eq_true, if_false, if_true]
  rw [show ('u' :: 'b' :: 'l' :: 'i' :: 'c' :: '/' :: 'a' :: 's' :: 's' :: 'e' :: 't' :: 's' :: '/' :: s).drop 13 = s from rfl]
  rw [rewritePathsAux_eq _ s (by simp only [List.length_cons]; omega)]

theorem rewritePaths_head_other (c : Char) (s : Str) (h1 : c ≠ '.') (h2 : c ≠ '/')
    (h3 : c ≠ 'p') : rewritePaths (c :: s) = c :: rewritePaths s := by
  show rewritePathsAux (c :: s).length (c :: s) = _
  rw [show (c :: s).length = s.length + 1 from by simp]
  simp only [rewritePathsAux]
  rw [show (str "./public/assets/").isPrefixOf (c :: s) = false from by
    simp [str, List.isPrefixOf, Ne.symm h1]]
  rw [show (str ".public/assets/").isPrefixOf (c :: s) = false from by
    simp [str, List.isPrefixOf, Ne.symm h1]]
  rw [show (str "/public/assets/").isPrefixOf (c :: s) = false from by
    simp [str, List.isPrefixOf, Ne.symm h2]]
  rw [show (str "public/assets/").isPrefixOf (c :: s) = false from by
    simp [str, List.isPrefixOf, Ne.symm h3]]
  simp only [Bool.false_eq_true, if_false]
  rfl

theorem rewritePaths_head_dotslash (s : Str) :
    rewritePaths (str "./public/assets/" ++ s) = str "/assets/" ++ rewritePaths s := by
  rw [show str "./public/assets/" ++ s = '.' :: '/' :: 'p' :: 'u' :: 'b' :: 'l' :: 'i' :: 'c' :: '/' :: 'a' :: 's' :: 's' :: 'e' :: 't' :: 's' :: '/' :: s from rfl]
  show rewritePathsAux _ _ = _
  rw [show ('.' :: '/' :: 'p' :: 'u' :: 'b' :: 'l' :: 'i' :: 'c' :: '/' :: 'a' :: 's' :: 's' :: 'e' :: 't' :: 's' :: '/' :: s).length = ('/' :: 'p' :: 'u' :: 'b' :: 'l' :: 'i' :: 'c' :: '/' :: 'a' :: 's' :: 's' :: 'e' :: 't' :: 's' :: '/' :: s).length + 1 from by simp]
  simp only [rewritePathsAux]
  rw [show (str "./public/assets/").isPrefixOf ('.' :: '/' :: 'p' :: 'u' :: 'b' :: 'l' :: 'i' :: 'c' :: '/' :: 'a' :: 's' :: 's' :: 'e' :: 't' :: 's' :: '/' :: s) = true from by
    simp [str, List.isPrefixOf]]
  simp only [Bool.false_eq_true, if_false, if_true]
  rw [show ('/' :: 'p' :: 'u' :: 'b' :: 'l' :: 'i' :: 'c' :: '/' :: 'a' :: 's' :: 's' :: 'e' :: 't' :: 's' :: '/' :: s).drop 15 = s from rfl]
  rw [rewritePathsAux_eq _ s (by simp only [List.length_cons]; omega)]

theorem rewritePaths_head_dot (s : Str) :
    rewritePaths (str ".public/assets/" ++ s) = str "/assets/" ++ rewritePaths s := by
  rw [show str ".public/assets/" ++ s = '.' :: 'p' :: 'u' :: 'b' :: 'l' :: 'i' :: 'c' :: '/' :: 'a' :: 's' :: 's' :: 'e' :: 't' :: 's' :: '/' :: s from rfl]
  show rewritePathsAux _ _ = _
  rw [show ('.' :: 'p' :: 'u' :: 'b' :: 'l' :: 'i' :: 'c' :: '/' :: 'a' :: 's' :: 's' :: 'e' :: 't' :: 's' :: '/' :: s).length = ('p' :: 'u' :: 'b' :: 'l' :: 'i' :: 'c' :: '/' :: 'a' :: 's' :: 's' :: 'e' :: 't' :: 's' :: '/' :: s).length + 1 from by simp]
  simp only [rewritePathsAux]
  rw [show (str "./public/assets/").isPrefixOf ('.' :: 'p' :: 'u' :: 'b' :: 'l' :: 'i' :: 'c' :: '/' :: 'a' :: 's' :: 's' :: 'e' :: 't' :: 's' :: '/' :: s) = false from rfl]
  rw [show (str ".public/assets/").isPrefixOf ('.' :: 'p' :: 'u' :: 'b' :: 'l' :: 'i' :: 'c' :: '/' :: 'a' :: 's' :: 's' :: 'e' :: 't' :: 's' :: '/' :: s) = true from by
    simp [str, List.isPrefixOf]]
  simp only [Bool.false_eq_true, if_false, if_true]
  rw [show ('p' :: 'u' :: 'b' :: 'l' :: 'i' :: 'c' :: '/' :: 'a' :: 's' :: 's' :: 'e' :: 't' :: 's' :: '/' :: s).drop 14 = s from rfl]
  rw [rewritePathsAux_eq _ s (by simp only [List.length_cons]; omega)]

theorem rewritePaths_head_slash (s : Str) :
    rewritePaths (str "/public/assets/" ++ s) = str "/assets/" ++ rewritePaths s := by
  rw [show str "/public/assets/" ++ s = '/' :: 'p' :: 'u' :: 'b' :: 'l' :: 'i' :: 'c' :: '/' :: 'a' :: 's' :: 's' :: 'e' :: 't' :: 's' :: '/' :: s from rfl]
  show rewritePathsAux _ _ = _
  rw [show ('/' :: 'p' :: 'u' :: 'b' :: 'l' :: 'i' :: 'c' :: '/' :: 'a' :: 's' :: 's' :: 'e' :: 't' :: 's' :: '/' :: s).length = ('p' :: 'u' :: 'b' :: 'l' :: 'i' :: 'c' :: '/' :: 'a' :: 's' :: 's' :: 'e' :: 't' :: 's' :: '/' :: s).length + 1 from by simp]
  simp only [rewritePathsAux]
  rw [show (str "./public/assets/").isPrefixOf ('/' :: 'p' :: 'u' :: 'b' :: 'l' :: 'i' :: 'c' :: '/' :: 'a' :: 's' :: 's' :: 'e' :: 't' :: 's' :: '/' :: s) = false from rfl]
  rw [show (str ".public/assets/").isPrefixOf ('/' :: 'p' :: 'u' :: 'b' :: 'l' :: 'i' :: 'c' :: '/' :: 'a' :: 's' :: 's' :: 'e' :: 't' :: 's' :: '/' :: s) = false from rfl]
  rw [show (str "/public/assets/").isPrefixOf ('/' :: 'p' :: 'u' :: 'b' :: 'l' :: 'i' :: 'c' :: '/' :: 'a' :: 's' :: 's' :: 'e' :: 't' :: 's' :: '/' :: s) = true from by
    simp [str, List.isPrefixOf]]
  simp only [Bool.false_eq_true, if_false, if_true]
  rw [show ('p' :: 'u' :: 'b' :: 'l' :: 'i' :: 'c' :: '/' :: 'a' :: 's' :: 's' :: 'e' :: 't' :: 's' :: '/' :: s).drop 14 = s from rfl]
  rw [rewritePathsAux_eq _ s (by simp only [List.length_cons]; omega)]

/-! ### The source-map URL -/

theorem sourceMapUrl_slash (s : Str) : ∃ t, sourceMapUrlOf s = '/' :: t := by
  unfold sourceMapUrlOf
  split
  · exact ⟨_, rfl⟩
  · split
    · exact ⟨_, rfl⟩
    · exact ⟨_, rfl⟩

theorem no_public_before_slash (t : Str) :
    (str "public/").isPrefixOf ('/' :: t) = false := by
  simp [str, List.isPrefixOf]

/-! ## The claims -/

/-- C3: a file whose current content already contains the Already-Processed
Marker makes the Single-File Processor emit the AlreadyProcessed signal and
terminate successfully with zero side effects — the filesystem is returned
unchanged, the outcome is `alreadyProcessed` (not a failure), and the action
trace is empty: no rename, no write, no gzip. -/
theorem claim_C3_already_processed_skip (cfg : Config) (m : Str → Str → Uglified)
    (gz : Str → Str) (st : FS) (f c : Str) (hc : st f = some c)
    (h : hasSourceMapContent c = true) :
    enqueue cfg m gz st f = (st, .alreadyProcessed, []) :=
  enqueue_marker_skip cfg m gz st hc h

theorem claim_C3_witness :
    (fun p => if p = str "a.js" then some (sourceMapMarker ++ str "/m") else none : FS)
        (str "a.js") = some (sourceMapMarker ++ str "/m") ∧
    hasSourceMapContent (sourceMapMarker ++ str "/m") = true ∧
    enqueue ⟨true⟩ (fun c u => ⟨c, u⟩) id
        (fun p => if p = str "a.js" then some (sourceMapMarker ++ str "/m") else none)
        (str "a.js") =
      ((fun p => if p = str "a.js" then some (sourceMapMarker ++ str "/m") else none),
        .alreadyProcessed, []) :=
  ⟨by decide, by decide,
   claim_C3_already_processed_skip ⟨true⟩ (fun c u => ⟨c, u⟩) id _ (str "a.js")
     (sourceMapMarker ++ str "/m") (by decide) (by decide)⟩

/-- C10: the primary variant's already-processed check looks only for the
fixed text `\n//# sourceMappingURL=` as a substring anywhere in the file and
never inspects the map path that follows, so any file containing that
substring — whatever URL follows it — is skipped both by the Single-File
Processor and by the Duplicate Reconciler, with no side effects. -/
theorem claim_C10_marker_anywhere_skips (cfg : Config) (m : Str → Str → Uglified)
    (gz : Str → Str) (st : FS) (hash : List (Str × Str)) (f c : Str)
    (hc : st f = some c) (h : hasSubstr sourceMapMarker c = true) :
    hasSourceMapContent c = true ∧
    enqueue cfg m gz st f = (st, .alreadyProcessed, []) ∧
    reconcileOne cfg st hash f = (st, .alreadyProcessed, []) :=
  ⟨h, enqueue_marker_skip cfg m gz st hc h, reconcile_marker_skip cfg st hash hc h⟩

theorem claim_C10_witness :
    (fun p => if p = str "v.js" then
        some (str "f();" ++ sourceMapMarker ++ str "v.map" ++ str "\ng();") else none : FS)
        (str "v.js") =
      some (str "f();" ++ sourceMapMarker ++ str "v.map" ++ str "\ng();") ∧
    hasSubstr sourceMapMarker
      (str "f();" ++ sourceMapMarker ++ str "v.map" ++ str "\ng();") = true ∧
    enqueue ⟨false⟩ (fun c u => ⟨c, u⟩) id
        (fun p => if p = str "v.js" then
          some (str "f();" ++ sourceMapMarker ++ str "v.map" ++ str "\ng();") else none)
        (str "v.js") =
      ((fun p => if p = str "v.js" then
          some (str "f();" ++ sourceMapMarker ++ str "v.map" ++ str "\ng();") else none),
        .alreadyProcessed, []) :=
  ⟨by decide, by decide,
   (claim_C10_marker_anywhere_skips ⟨false⟩ (fun c u => ⟨c, u⟩) id _ [] (str "v.js")
     (str "f();" ++ sourceMapMarker ++ str "v.map" ++ str "\ng();")
     (by decide) (by decide)).2.1⟩

/-- C5: a successfully processed file's final content is the rewritten
minified code followed by exactly a newline, `//# sourceMappingURL=` and the
site-absolute path of the source map; that path starts with `/` and hence
never starts with `public/`. -/
theorem claim_C5_trailing_marker (cfg : Config) (m : Str → Str → Uglified)
    (gz : Str → Str) (st : FS) (f c : Str)
    (hf : (str ".js").isSuffixOf f = true) (hc : st f = some c)
    (h : hasSourceMapContent c = false) :
    ∃ body, (enqueue cfg m gz st f).2.1 = .success ∧
      (enqueue cfg m gz st f).1 f =
        some (body ++ (sourceMapMarker ++ sourceMapUrlOf (sourcemapPath f))) ∧
      (∃ t, sourceMapUrlOf (sourcemapPath f) = '/' :: t) ∧
      (str "public/").isPrefixOf (sourceMapUrlOf (sourcemapPath f)) = false := by
  obtain ⟨hsucc, hcode, -, -⟩ := enqueue_success cfg m gz st hf hc h
  obtain ⟨t, ht⟩ := sourceMapUrl_slash (sourcemapPath f)
  refine ⟨_, hsucc, hcode, ⟨t, ht⟩, ?_⟩
  rw [ht]
  exact no_public_before_slash t

theorem claim_C5_witness :
    (str ".js").isSuffixOf (str "public/assets/a.js") = true ∧
    (fun p => if p = str "public/assets/a.js" then some (str "k") else none : FS)
        (str "public/assets/a.js") = some (str "k") ∧
    hasSourceMapContent (str "k") = false ∧
    ∃ body,
      (enqueue ⟨false⟩ (fun c u => ⟨c, u⟩) id
        (fun p => if p = str "public/assets/a.js" then some (str "k") else none)
        (str "public/assets/a.js")).2.1 = .success ∧
      (enqueue ⟨false⟩ (fun c u => ⟨c, u⟩) id
        (fun p => if p = str "public/assets/a.js" then some (str "k") else none)
        (str "public/assets/a.js")).1 (str "public/assets/a.js") =
        some (body ++ (sourceMapMarker ++
          sourceMapUrlOf (sourcemapPath (str "public/assets/a.js")))) ∧
      (∃ t, sourceMapUrlOf (sourcemapPath (str "public/assets/a.js")) = '/' :: t) ∧
      (str "public/").isPrefixOf
        (sourceMapUrlOf (sourcemapPath (str "public/assets/a.js"))) = false :=
  ⟨by decide, by decide, by decide,
   claim_C5_trailing_marker ⟨false⟩ (fun c u => ⟨c, u⟩) id _ (str "public/assets/a.js")
     (str "k") (by decide) (by decide) (by decide)⟩

/-- C9: the two script variants' already-processed checks are genuinely
different functions of the file content: this content contains the fixed
marker text somewhere (so the primary variant's substring-anywhere check
skips the file) yet does not end with the exact per-file marker text, so the
second variant's trailing-match check does not classify it as processed. -/
theorem claim_C9_variant_checks_differ :
    hasSourceMapContent (str "a;\n//# sourceMappingURL=old.map\nb();") = true ∧
    hasSourceMapV2 (str "app.js") (str "a;\n//# sourceMappingURL=old.map\nb();") = false :=
  ⟨by decide, by decide⟩

/-- C4, counterexample: the path rewrite does not remove every
`public/assets/` occurrence from every input.  On `public/public/assets/`
the single regex match `/public/assets/` is replaced by `/assets/`, and the
preserved prefix `public` together with the replacement text forms
`public/assets/` again, so the output still contains the pattern. -/
theorem claim_C4_counterexample :
    hasSubstr (str "public/assets/") (str "public/public/assets/") = true ∧
    rewritePaths (str "public/public/assets/") = str "public/assets/" ∧
    hasSubstr (str "public/assets/") (rewritePaths (str "public/public/assets/")) = true :=
  ⟨by decide, by decide, by decide⟩

/-- C4, amended: the rewrite replaces each leftmost match of the pattern —
an optional `.`, an optional `/`, then `public/assets/` — with `/assets/`
and continues scanning after the match (the four head equations and the
no-match step below), in particular `public/assets/foo.js` becomes
`/assets/foo.js`; but the output may still contain `public/assets/` when a
replacement boundary recreates it, as `public/public/assets/` shows. -/
theorem claim_C4_rewrite_each_match :
    (∀ s, rewritePaths (str "public/assets/" ++ s) = str "/assets/" ++ rewritePaths s) ∧
    (∀ s, rewritePaths (str "./public/assets/" ++ s) = str "/assets/" ++ rewritePaths s) ∧
    (∀ s, rewritePaths (str "/public/assets/" ++ s) = str "/assets/" ++ rewritePaths s) ∧
    (∀ s, rewritePaths (str ".public/assets/" ++ s) = str "/assets/" ++ rewritePaths s) ∧
    (∀ c s, c ≠ '.' → c ≠ '/' → c ≠ 'p' →
      rewritePaths (c :: s) = c :: rewritePaths s) ∧
    rewritePaths (str "public/assets/foo.js") = str "/assets/foo.js" ∧
    rewritePaths (str "public/public/assets/") = str "public/assets/" :=
  ⟨rewritePaths_head_plain, rewritePaths_head_dotslash, rewritePaths_head_slash,
   rewritePaths_head_dot, rewritePaths_head_other, by decide, by decide⟩

theorem claim_C4_witness :
    ('x' : Char) ≠ '.' ∧ ('x' : Char) ≠ '/' ∧ ('x' : Char) ≠ 'p' ∧
    rewritePaths ('x' :: str "public/assets/") = 'x' :: rewritePaths (str "public/assets/") :=
  ⟨by decide, by decide, by decide,
   claim_C4_rewrite_each_match.2.2.2.2.1 'x' (str "public/assets/")
     (by decide) (by decide) (by decide)⟩

theorem pnl_single (cfg : Config) (st : FS) (hsh : List (Str × Str)) (f : Str) :
    (processNonHashedList cfg st hsh [f]).1 = (reconcileOne cfg st hsh f).1 := by
  simp only [processNonHashedList]
  cases ho : (reconcileOne cfg st hsh f).2.1 <;> simp [ho, processNonHashedList]

/-- C1: a non-fingerprinted file whose raw content is found in the Content
Matcher ends up, after the Duplicate Reconciler, holding exactly the
matched fingerprinted sibling's minified file content (the sibling's
`.orig.js` really is one of the matcher's source files and holds exactly
the raw content), and the reconciler's action trace contains only renames
and copies — no minification and no write of a fresh file or source map. -/
theorem claim_C1_reconciler_reuses_sibling (cfg : Config) (st : FS)
    (origFiles : List Str) (hsh : List (Str × Str))
    (jsfile rawC sourceOrig minC : Str)
    (hf : (str ".js").isSuffixOf jsfile = true)
    (hc : st jsfile = some rawC)
    (hm : hasSourceMapContent rawC = false)
    (hbuild : buildContentHash st origFiles [] = .ok hsh)
    (hl : hashLookup hsh rawC = some sourceOrig)
    (hne1 : replaceFirst (str ".orig") [] sourceOrig ≠ jsfile)
    (hne2 : replaceFirst (str ".orig") [] sourceOrig ≠ origPath jsfile)
    (hms : st (replaceFirst (str ".orig") [] sourceOrig) = some minC) :
    (sourceOrig ∈ origFiles ∧ st sourceOrig = some rawC) ∧
    (processNonHashedFiles cfg st origFiles [jsfile]).1 jsfile = some minC ∧
    (∀ a ∈ (reconcileOne cfg st hsh jsfile).2.2,
      (∃ s d, a = .renamed s d) ∨ (∃ s d, a = .copied s d)) := by
  have hmem := hashLookup_mem hl
  have hentry := build_entries st origFiles [] hsh hbuild (rawC, sourceOrig) hmem
  rcases hentry with habs | ⟨hmemf, hstf⟩
  · exact absurd habs (by simp)
  refine ⟨⟨hmemf, hstf⟩, ?_, reconcile_actions cfg st hsh jsfile⟩
  have hcopy := (reconcile_copies cfg st hsh hf hc hm hl hne1 hne2 hms).1
  simp only [processNonHashedFiles, hbuild]
  rw [pnl_single]
  exact hcopy

theorem claim_C1_witness :
    (str ".js").isSuffixOf (str "b.js") = true ∧
    buildContentHash
      (fun p => if p = str "a.orig.js" then some (str "r")
        else if p = str "a.js" then some (str "M")
        else if p = str "b.js" then some (str "r") else none)
      [str "a.orig.js"] [] = .ok [(str "r", str "a.orig.js")] ∧
    hashLookup [(str "r", str "a.orig.js")] (str "r") = some (str "a.orig.js") ∧
    ((str "a.orig.js" ∈ [str "a.orig.js"]) ∧
      (fun p => if p = str "a.orig.js" then some (str "r")
        else if p = str "a.js" then some (str "M")
        else if p = str "b.js" then some (str "r") else none : FS)
        (str "a.orig.js") = some (str "r")) ∧
    (processNonHashedFiles ⟨false⟩
      (fun p => if p = str "a.orig.js" then some (str "r")
        else if p = str "a.js" then some (str "M")
        else if p = str "b.js" then some (str "r") else none)
      [str "a.orig.js"] [str "b.js"]).1 (str "b.js") = some (str "M") ∧
    (∀ a ∈ (reconcileOne ⟨false⟩
      (fun p => if p = str "a.orig.js" then some (str "r")
        else if p = str "a.js" then some (str "M")
        else if p = str "b.js" then some (str "r") else none)
      [(str "r", str "a.orig.js")] (str "b.js")).2.2,
      (∃ s d, a = .renamed s d) ∨ (∃ s d, a = .copied s d)) := by
  have h := claim_C1_reconciler_reuses_sibling ⟨false⟩
    (fun p => if p = str "a.orig.js" then some (str "r")
      else if p = str "a.js" then some (str "M")
      else if p = str "b.js" then some (str "r") else none)
    [str "a.orig.js"] [(str "r", str "a.orig.js")]
    (str "b.js") (str "r") (str "a.orig.js") (str "M")
    (by decide) (by decide) (by decide) (by rfl) (by decide)
    (by decide) (by decide) (by decide)
  exact ⟨by decide, by rfl, by decide, h.1, h.2.1, h.2.2⟩

/-- C7, counterexample to the claim as stated: a match-miss does not abort
only the affected file.  With non-fingerprinted files `b.js` (whose content
`zz` matches nothing) and `c.js` (whose content `r` matches `a.orig.js`),
the reconciler stops at `b.js` with the named error and never processes
`c.js` (its content stays `r`), whereas reconciling `c.js` alone would have
replaced its content with the sibling's minified output `M`. -/
theorem claim_C7_counterexample :
    (processNonHashedFiles ⟨false⟩
      (fun p => if p = str "a.orig.js" then some (str "r")
        else if p = str "a.js" then some (str "M")
        else if p = str "b.js" then some (str "zz")
        else if p = str "c.js" then some (str "r") else none)
      [str "a.orig.js"] [str "b.js", str "c.js"]).2 =
      .error (str "Could not find original hashed file for: " ++ str "b.js") ∧
    (processNonHashedFiles ⟨false⟩
      (fun p => if p = str "a.orig.js" then some (str "r")
        else if p = str "a.js" then some (str "M")
        else if p = str "b.js" then some (str "zz")
        else if p = str "c.js" then some (str "r") else none)
      [str "a.orig.js"] [str "b.js", str "c.js"]).1 (str "c.js") = some (str "r") ∧
    (processNonHashedFiles ⟨false⟩
      (fun p => if p = str "a.orig.js" then some (str "r")
        else if p = str "a.js" then some (str "M")
        else if p = str "b.js" then some (str "zz")
        else if p = str "c.js" then some (str "r") else none)
      [str "a.orig.js"] [str "c.js"]).1 (str "c.js") = some (str "M") :=
  ⟨by rfl, by decide, by decide⟩

/-- C7, amended: a non-fingerprinted file whose content matches no entry of
the Content Matcher makes the reconciler fail with the explicit error
`Could not find original hashed file for: <file>` naming that file; the
filesystem is returned completely unchanged — in particular the file is not
renamed to its `.orig.js` form — but the error also terminates the
reconciler loop, so the remaining non-fingerprinted files are not
processed. -/
theorem claim_C7_no_match_named_error (cfg : Config) (st : FS)
    (origFiles : List Str) (hsh : List (Str × Str)) (jsfile c : Str)
    (rest : List Str) (hc : st jsfile = some c)
    (hm : hasSourceMapContent c = false)
    (hbuild : buildContentHash st origFiles [] = .ok hsh)
    (hl : hashLookup hsh c = none) :
    processNonHashedFiles cfg st origFiles (jsfile :: rest) =
      (st, .error (str "Could not find original hashed file for: " ++ jsfile)) := by
  simp only [processNonHashedFiles, hbuild]
  have hr := reconcile_nomatch cfg st hsh hc hm hl
  simp [processNonHashedList, hr]

theorem claim_C7_witness :
    (fun p => if p = str "a.orig.js" then some (str "r")
      else if p = str "b.js" then some (str "zz") else none : FS)
      (str "b.js") = some (str "zz") ∧
    hasSourceMapContent (str "zz") = false ∧
    buildContentHash
      (fun p => if p = str "a.orig.js" then some (str "r")
        else if p = str "b.js" then some (str "zz") else none)
      [str "a.orig.js"] [] = .ok [(str "r", str "a.orig.js")] ∧
    hashLookup [(str "r", str "a.orig.js")] (str "zz") = none ∧
    processNonHashedFiles ⟨true⟩
      (fun p => if p = str "a.orig.js" then some (str "r")
        else if p = str "b.js" then some (str "zz") else none)
      [str "a.orig.js"] [str "b.js", str "w.js"] =
      ((fun p => if p = str "a.orig.js" then some (str "r")
        else if p = str "b.js" then some (str "zz") else none),
       .error (str "Could not find original hashed file for: " ++ str "b.js")) :=
  ⟨by decide, by decide, by rfl, by decide,
   claim_C7_no_match_named_error ⟨true⟩
     (fun p => if p = str "a.orig.js" then some (str "r")
       else if p = str "b.js" then some (str "zz") else none)
     [str "a.orig.js"] [(str "r", str "a.orig.js")] (str "b.js") (str "zz")
     [str "w.js"] (by decide) (by decide) (by rfl) (by decide)⟩

/-- C6, counterexample to the claim as stated: a per-file I/O error in the
Duplicate Reconciler does stop the remaining files of the loop and unwinds
out of it.  With `gone.js` absent from the filesystem and `good.js` a
reconcilable duplicate, running the reconciler over `[gone.js, good.js]`
surfaces the read error and leaves `good.js` untouched (content `q`),
whereas reconciling `good.js` alone rewrites it to `MM`. -/
theorem claim_C6_counterexample :
    (processNonHashedFiles ⟨false⟩
      (fun p => if p = str "x.orig.js" then some (str "q")
        else if p = str "x.js" then some (str "MM")
        else if p = str "good.js" then some (str "q") else none)
      [str "x.orig.js"] [str "gone.js", str "good.js"]).2 =
      .error (str "read error") ∧
    (processNonHashedFiles ⟨false⟩
      (fun p => if p = str "x.orig.js" then some (str "q")
        else if p = str "x.js" then some (str "MM")
        else if p = str "good.js" then some (str "q") else none)
      [str "x.orig.js"] [str "gone.js", str "good.js"]).1 (str "good.js") =
      some (str "q") ∧
    (processNonHashedFiles ⟨false⟩
      (fun p => if p = str "x.orig.js" then some (str "q")
        else if p = str "x.js" then some (str "MM")
        else if p = str "good.js" then some (str "q") else none)
      [str "x.orig.js"] [str "good.js"]).1 (str "good.js") = some (str "MM") :=
  ⟨by rfl, by decide, by decide⟩

/-- C6, amended: in the Work Queue every file receives its own outcome and
a failing file does not stop the remaining queued files — the queue records
the failure and continues processing the rest from the post-failure state;
in the Duplicate Reconciler, by contrast, a per-file failure (read error or
match-miss) stops the loop immediately and surfaces that error as the
reconciler's result. -/
theorem claim_C6_queue_isolates_reconciler_aborts (cfg : Config)
    (m : Str → Str → Uglified) (gz : Str → Str) :
    (∀ (st : FS) (files : List Str),
      (runQueue cfg m gz st files).2.length = files.length) ∧
    (∀ (st : FS) (f : Str) (fs : List Str) (e : Str),
      (enqueue cfg m gz st f).2.1 = .failure e →
      runQueue cfg m gz st (f :: fs) =
        ((runQueue cfg m gz (enqueue cfg m gz st f).1 fs).1,
         (.failure e, (enqueue cfg m gz st f).2.2) ::
           (runQueue cfg m gz (enqueue cfg m gz st f).1 fs).2)) ∧
    (∀ (st : FS) (hash : List (Str × Str)) (f : Str) (fs : List Str) (e : Str),
      (reconcileOne cfg st hash f).2.1 = .failure e →
      processNonHashedList cfg st hash (f :: fs) =
        ((reconcileOne cfg st hash f).1, .error e)) := by
  refine ⟨fun st files => runQueue_len cfg m gz files st, ?_, ?_⟩
  · intro st f fs e ho
    simp [runQueue, ho]
  · intro st hash f fs e ho
    simp [processNonHashedList, ho]

theorem claim_C6_witness :
    (runQueue ⟨false⟩ (fun c u => ⟨c, u⟩) id (fun _ => none)
      [str "a.js", str "b.js"]).2.length = 2 ∧
    (reconcileOne ⟨false⟩ (fun _ => none) [] (str "a.js")).2.1 =
      .failure (str "read error") ∧
    processNonHashedList ⟨false⟩ (fun _ => none) [] [str "a.js", str "b.js"] =
      ((reconcileOne ⟨false⟩ (fun _ => none) [] (str "a.js")).1,
       .error (str "read error")) :=
  ⟨(claim_C6_queue_isolates_reconciler_aborts ⟨false⟩ (fun c u => ⟨c, u⟩) id).1
      (fun _ => none) [str "a.js", str "b.js"],
   by rfl,
   (claim_C6_queue_isolates_reconciler_aborts ⟨false⟩ (fun c u => ⟨c, u⟩) id).2.2
      (fun _ => none) [] (str "a.js") [str "b.js"] (str "read error") (by rfl)⟩

/-! ### The queue scheduler model -/

theorem removeOne_le (t : Str) : ∀ (l : List Str), (removeOne t l).length ≤ l.length := by
  intro l
  induction l with
  | nil => simp [removeOne]
  | cons x xs ih =>
    by_cases hx : x = t
    · simp [removeOne, hx]
    · simp only [removeOne, if_neg hx, List.length_cons]
      omega

theorem removeOne_perm (t : Str) : ∀ {l : List Str}, t ∈ l →
    l.Perm (t :: removeOne t l) := by
  intro l
  induction l with
  | nil => intro h; simp at h
  | cons x xs ih =>
    intro h
    by_cases hx : x = t
    · subst hx
      simp [removeOne]
    · have hmem : t ∈ xs := by
        rcases List.mem_cons.mp h with h1 | h2
        · exact absurd h1.symm hx
        · exact h2
      simp only [removeOne, if_neg hx]
      exact ((ih hmem).cons x).trans (List.Perm.swap t x (removeOne t xs))

theorem qreach_invariant (n : Nat) (tasks : List Str) :
    ∀ s, QReach n (initQ tasks) s →
      s.inFlight.length ≤ n ∧
      (s.pending ++ s.inFlight ++ s.done).Perm tasks ∧
      (s.drainCount = 0 ∨ (s.drainCount = 1 ∧ s.pending = [] ∧ s.inFlight = [])) := by
  intro s hreach
  induction hreach with
  | refl => exact ⟨by simp [initQ], by simp [initQ], Or.inl rfl⟩
  | step hr hstep ih =>
    rename_i s₀ s₁
    obtain ⟨ih1, ih2, ih3⟩ := ih
    cases hstep with
    | start t p s₂ hpend hlen =>
      refine ⟨by simp only [List.length_cons]; omega, ?_, ?_⟩
      · rw [hpend] at ih2
        simp only [List.append_assoc, List.cons_append] at ih2 ⊢
        exact List.perm_middle.trans ih2
      · rcases ih3 with h0 | ⟨h1, hp, hi⟩
        · exact Or.inl h0
        · rw [hpend] at hp
          exact absurd hp (by simp)
    | finish t s₂ hmem =>
      have hle := removeOne_le t s₀.inFlight
      have hperm : s₀.inFlight.Perm (t :: removeOne t s₀.inFlight) :=
        removeOne_perm t hmem
      refine ⟨?_, ?_, ?_⟩
      · show (removeOne t s₀.inFlight).length ≤ n
        omega
      · show (s₀.pending ++ removeOne t s₀.inFlight ++ (t :: s₀.done)).Perm tasks
        refine List.Perm.trans ?_ ih2
        simp only [List.append_assoc]
        refine List.Perm.append_left s₀.pending ?_
        exact List.perm_middle.trans (hperm.append_right s₀.done).symm
      · by_cases hc : s₀.pending = [] ∧ removeOne t s₀.inFlight = []
        · rcases ih3 with h0 | ⟨h1, hp, hi⟩
          · refine Or.inr ⟨?_, hc.1, hc.2⟩
            show s₀.drainCount + _ = 1
            rw [if_pos hc, h0]
          · rw [hi] at hmem
            exact absurd hmem (by simp)
        · rcases ih3 with h0 | ⟨h1, hp, hi⟩
          · refine Or.inl ?_
            show s₀.drainCount + _ = 0
            rw [if_neg hc, h0]
          · rw [hi] at hmem
            exact absurd hmem (by simp)

/-- C8: the Work Queue model keeps at most 3 files in flight — 3 being the
concurrency limit the script actually installs, because line 16 reads
`program.threads` before `program.parse` has run, so the captured value is
always the default — the drain callback fires at most once and only when
every submitted file has finished (the finished tasks are a permutation of
the submitted ones).  The configured value is ignored: with `--threads 1`
the parsed limit would be 1, yet a state with two files in flight is
reachable. -/
theorem claim_C8_queue_bound_and_drain :
    loadTimeThreads = 3 ∧
    threadsOrDefault (some 1) = 1 ∧
    (∀ (tasks : List Str) (s : QueueState),
      QReach loadTimeThreads (initQ tasks) s →
      s.inFlight.length ≤ 3 ∧ s.drainCount ≤ 1 ∧
      (s.drainCount = 1 → s.pending = [] ∧ s.inFlight = [] ∧ s.done.Perm tasks)) ∧
    (∃ s, QReach loadTimeThreads (initQ [str "a.js", str "b.js"]) s ∧
      1 < s.inFlight.length) := by
  refine ⟨rfl, rfl, ?_, ?_⟩
  · intro tasks s hs
    obtain ⟨h1, h2, h3⟩ := qreach_invariant loadTimeThreads tasks s hs
    refine ⟨h1, ?_, ?_⟩
    · rcases h3 with h0 | ⟨hd, -, -⟩
      · omega
      · omega
    · intro hd
      rcases h3 with h0 | ⟨-, hp, hi⟩
      · omega
      · refine ⟨hp, hi, ?_⟩
        rw [hp, hi] at h2
        simpa using h2
  · refine ⟨⟨[], [str "b.js", str "a.js"], [], 0⟩, ?_, by simp⟩
    have s1 : QStep loadTimeThreads (initQ [str "a.js", str "b.js"])
        ⟨[str "b.js"], [str "a.js"], [], 0⟩ := by
      have := QStep.start (n := loadTimeThreads) (str "a.js") [str "b.js"]
        (initQ [str "a.js", str "b.js"]) rfl (by simp [initQ, loadTimeThreads, threadsOrDefault])
      simpa [initQ] using this
    have s2 : QStep loadTimeThreads ⟨[str "b.js"], [str "a.js"], [], 0⟩
        ⟨[], [str "b.js", str "a.js"], [], 0⟩ := by
      have := QStep.start (n := loadTimeThreads) (str "b.js") []
        (⟨[str "b.js"], [str "a.js"], [], 0⟩ : QueueState) rfl
        (by simp [loadTimeThreads, threadsOrDefault])
      simpa using this
    exact QReach.step (QReach.step QReach.refl s1) s2

theorem claim_C8_witness :
    QReach loadTimeThreads (initQ [str "a.js"]) (initQ [str "a.js"]) ∧
    (initQ [str "a.js"]).inFlight.length ≤ 3 ∧
    (initQ [str "a.js"]).drainCount ≤ 1 :=
  ⟨QReach.refl,
   (claim_C8_queue_bound_and_drain.2.2.1 [str "a.js"] (initQ [str "a.js"]) QReach.refl).1,
   (claim_C8_queue_bound_and_drain.2.2.1 [str "a.js"] (initQ [str "a.js"]) QReach.refl).2.1⟩

/-- C2: running the full pipeline a second time on the output of a first
run — where the first run's queue outcomes were all successes or
already-processed skips and its reconciler finished without error — leaves
the filesystem exactly as the first run left it, and in the second run
every fingerprinted file takes the AlreadyProcessed branch with an empty
action trace (no minification, rename, write or gzip) and every
non-fingerprinted file is likewise skipped by the reconciler. -/
theorem claim_C2_second_run_all_skips
    (cfg : Config) (m : Str → Str → Uglified) (gz : Str → Str) (st : FS)
    (hashed nonH : List Str)
    (hclean : ∀ f ∈ hashed ++ nonH, CleanJs f)
    (hnd : (hashed ++ nonH).Nodup)
    (hq : ∀ o ∈ (runPipeline cfg m gz st hashed nonH (hashed.map origPath)).2.1,
      o.1.ok = true)
    (hr : ∃ l, (runPipeline cfg m gz st hashed nonH (hashed.map origPath)).2.2 = .ok l) :
    runPipeline cfg m gz (runPipeline cfg m gz st hashed nonH (hashed.map origPath)).1
        hashed nonH (hashed.map origPath) =
      ((runPipeline cfg m gz st hashed nonH (hashed.map origPath)).1,
       hashed.map (fun _ => (Outcome.alreadyProcessed, ([] : List Action))),
       .ok (nonH.map fun f => (f, Outcome.alreadyProcessed))) := by
  -- names for the run-one components
  have hcleanH : ∀ f ∈ hashed, CleanJs f :=
    fun f hf => hclean f (List.mem_append_left _ hf)
  have hcleanN : ∀ f ∈ nonH, CleanJs f :=
    fun f hf => hclean f (List.mem_append_right _ hf)
  have hndH : hashed.Nodup := hnd.of_append_left
  have hndN : nonH.Nodup := hnd.of_append_right
  have hdisj : ∀ a ∈ hashed, a ∉ nonH := List.disjoint_of_nodup_append hnd
  have hq' : ∀ o ∈ (runQueue cfg m gz st hashed).2, o.1.ok = true := hq
  obtain ⟨l, hrok⟩ := hr
  have hrok' : (processNonHashedFiles cfg (runQueue cfg m gz st hashed).1
      (hashed.map origPath) nonH).2 = .ok l := hrok
  -- markers after the queue phase
  have hmark1 : ∀ f ∈ hashed, MarkerIn (runQueue cfg m gz st hashed).1 f :=
    runQueue_saturates cfg m gz hashed st hcleanH hndH hq'
  obtain ⟨hsh, hbuild, hlist⟩ := pnh_inv hrok'
  have horig1 : ∀ g ∈ hashed.map origPath, ∃ c, (runQueue cfg m gz st hashed).1 g = some c :=
    build_readable_of_ok _ _ _ _ hbuild
  -- every hash entry points back at a minified, marker-carrying hashed file
  have hsrc : ∀ c so, hashLookup hsh c = some so →
      MarkerIn (runQueue cfg m gz st hashed).1 (replaceFirst (str ".orig") [] so) ∧
      ∀ f ∈ nonH, replaceFirst (str ".orig") [] so ≠ f ∧
        replaceFirst (str ".orig") [] so ≠ origPath f ∧
        replaceFirst (str ".orig") [] so ≠ gzippedPath f := by
    intro c so hl
    have hmem := hashLookup_mem hl
    rcases build_entries _ _ _ _ hbuild (c, so) hmem with habs | ⟨hsoin, -⟩
    · exact absurd habs (by simp)
    obtain ⟨h0, hh0, hso⟩ := List.mem_map.mp hsoin
    have hso' : origPath h0 = so := hso
    have hch0 := hcleanH h0 hh0
    have hsub : hasSubstr (str ".orig") (jsBase h0 ++ str ".js") = false := by
      rw [← endsJs_decomp hch0.1]
      exact hch0.2
    have hcancel : replaceFirst (str ".orig") [] so = h0 := by
      rw [← hso', origPath_eq hch0.1, replaceFirst_orig_cancel _ hsub, ← endsJs_decomp hch0.1]
    rw [hcancel]
    refine ⟨hmark1 h0 hh0, ?_⟩
    intro f hf
    have hcf := hcleanN f hf
    have hne : h0 ≠ f := fun he => hdisj h0 hh0 (he ▸ hf)
    exact ⟨hne, js_ne_origPath hch0.1 hch0.not_orig hcf.1,
      js_ne_gzippedPath hch0.1 hcf.1⟩
  -- after the reconciler, every non-fingerprinted file carries the marker
  have hlist2eq : (processNonHashedList cfg (runQueue cfg m gz st hashed).1 hsh nonH).2
      = .ok l := by rw [hlist]
  have hmarkN : ∀ f ∈ nonH,
      MarkerIn (processNonHashedFiles cfg (runQueue cfg m gz st hashed).1
        (hashed.map origPath) nonH).1 f := by
    intro f hf
    have := list_saturates cfg hsh nonH (runQueue cfg m gz st hashed).1
      hcleanN hndN hsrc l hlist2eq f hf
    rw [hlist] at this
    exact this
  -- the reconciler's frame, stated at the run-one final state
  have hframe : ∀ p, (∀ f ∈ nonH, p ≠ f ∧ p ≠ origPath f ∧ p ≠ gzippedPath f) →
      (processNonHashedFiles cfg (runQueue cfg m gz st hashed).1
        (hashed.map origPath) nonH).1 p = (runQueue cfg m gz st hashed).1 p := by
    intro p hp
    have := list_frame cfg hsh nonH (runQueue cfg m gz st hashed).1 p hp
    rw [hlist] at this
    exact this
  -- markers survive the reconciler for the hashed files
  have hmarkH : ∀ h ∈ hashed,
      MarkerIn (processNonHashedFiles cfg (runQueue cfg m gz st hashed).1
        (hashed.map origPath) nonH).1 h := by
    intro h hh
    obtain ⟨c, hc, hmk⟩ := hmark1 h hh
    have hch := hcleanH h hh
    refine ⟨c, ?_, hmk⟩
    rw [hframe h ?_]
    · exact hc
    · intro f hf
      have hcf := hcleanN f hf
      have hne : h ≠ f := fun he => hdisj h hh (he ▸ hf)
      exact ⟨hne, js_ne_origPath hch.1 hch.not_orig hcf.1,
        js_ne_gzippedPath hch.1 hcf.1⟩
  -- the original files remain readable for the second hash build
  have horig2 : ∀ g ∈ hashed.map origPath,
      ∃ c, (processNonHashedFiles cfg (runQueue cfg m gz st hashed).1
        (hashed.map origPath) nonH).1 g = some c := by
    intro g hg
    obtain ⟨c, hc⟩ := horig1 g hg
    obtain ⟨h0, hh0, hso⟩ := List.mem_map.mp hg
    have hso' : origPath h0 = g := hso
    have hch0 := hcleanH h0 hh0
    refine ⟨c, ?_⟩
    rw [hframe g ?_]
    · exact hc
    · intro f hf
      have hcf := hcleanN f hf
      have hne : h0 ≠ f := fun he => hdisj h0 hh0 (he ▸ hf)
      rw [← hso']
      exact ⟨Ne.symm (js_ne_origPath hcf.1 hcf.not_orig hch0.1),
        fun he => hne (origPath_inj hch0.1 hcf.1 he),
        origPath_ne_gzippedPath hch0.1 hcf.1⟩
  -- the second run
  have hq2 : runQueue cfg m gz
      ((processNonHashedFiles cfg (runQueue cfg m gz st hashed).1
        (hashed.map origPath) nonH).1) hashed =
      ((processNonHashedFiles cfg (runQueue cfg m gz st hashed).1
        (hashed.map origPath) nonH).1,
       hashed.map fun _ => (Outcome.alreadyProcessed, ([] : List Action))) :=
    runQueue_skip_all cfg m gz hashed _ hmarkH
  obtain ⟨hsh2, hbuild2⟩ := build_ok_of_readable _ (hashed.map origPath) horig2 []
  have hlist2 : processNonHashedList cfg
      ((processNonHashedFiles cfg (runQueue cfg m gz st hashed).1
        (hashed.map origPath) nonH).1) hsh2 nonH =
      ((processNonHashedFiles cfg (runQueue cfg m gz st hashed).1
        (hashed.map origPath) nonH).1,
       .ok (nonH.map fun f => (f, Outcome.alreadyProcessed))) :=
    list_skip_all cfg hsh2 nonH _ hmarkN
  show runPipeline cfg m gz
      ((processNonHashedFiles cfg (runQueue cfg m gz st hashed).1
        (hashed.map origPath) nonH).1) hashed nonH (hashed.map origPath) =
      ((processNonHashedFiles cfg (runQueue cfg m gz st hashed).1
        (hashed.map origPath) nonH).1,
       hashed.map (fun _ => (Outcome.alreadyProcessed, ([] : List Action))),
       .ok (nonH.map fun f => (f, Outcome.alreadyProcessed)))
  generalize hgen : (processNonHashedFiles cfg (runQueue cfg m gz st hashed).1
      (hashed.map origPath) nonH).1 = st₂ at hq2 hbuild2 hlist2 ⊢
  simp only [runPipeline]
  rw [hq2]
  simp only [processNonHashedFiles, hbuild2, hlist2]

theorem claim_C2_witness :
    (∀ f ∈ [str "a.js"] ++ [str "b.js"], CleanJs f) ∧
    ([str "a.js"] ++ [str "b.js"]).Nodup ∧
    (∀ o ∈ (runPipeline ⟨false⟩ (fun c u => ⟨str "m", u⟩) id
      (fun p => if p = str "a.js" then some (str "x")
        else if p = str "b.js" then some (str "x") else none)
      [str "a.js"] [str "b.js"] ([str "a.js"].map origPath)).2.1, o.1.ok = true) ∧
    runPipeline ⟨false⟩ (fun c u => ⟨str "m", u⟩) id
      (runPipeline ⟨false⟩ (fun c u => ⟨str "m", u⟩) id
        (fun p => if p = str "a.js" then some (str "x")
          else if p = str "b.js" then some (str "x") else none)
        [str "a.js"] [str "b.js"] ([str "a.js"].map origPath)).1
      [str "a.js"] [str "b.js"] ([str "a.js"].map origPath) =
      ((runPipeline ⟨false⟩ (fun c u => ⟨str "m", u⟩) id
        (fun p => if p = str "a.js" then some (str "x")
          else if p = str "b.js" then some (str "x") else none)
        [str "a.js"] [str "b.js"] ([str "a.js"].map origPath)).1,
       [str "a.js"].map (fun _ => (Outcome.alreadyProcessed, ([] : List Action))),
       .ok ([str "b.js"].map fun f => (f, Outcome.alreadyProcessed))) :=
  ⟨by decide, by decide, by decide,
   claim_C2_second_run_all_skips ⟨false⟩ (fun c u => ⟨str "m", u⟩) id
     (fun p => if p = str "a.js" then some (str "x")
       else if p = str "b.js" then some (str "x") else none)
     [str "a.js"] [str "b.js"] (by decide) (by decide) (by decide)
     ⟨[(str "b.js", Outcome.success)], by rfl⟩⟩


end RailsSourceMaps
